import Mathlib

/-!
Verification development for the `langextract` extraction pipeline
(tokenizer, chunker, resolver, aligner, annotator).

The Rust sources are shallowly embedded: text is `List Char`, machine
integers are `Nat`, fallible code returns `Except`, and the two stateful
iterators (sentence iterator, chunk iterator) become explicit state
passing with fuel.  Byte positions (Rust `usize` offsets produced by
`regex::Match::start/end` and `char_indices`) are modelled by summing
UTF-8 sizes of code points.
-/

deriving instance DecidableEq for Except

namespace LX

/-- UTF-8 encoded size of a code point, as Rust's `char::len_utf8` and the
byte offsets of `regex` matches use it. -/
def charUtf8Len (c : Char) : Nat :=
  if c.toNat ≤ 0x7F then 1
  else if c.toNat ≤ 0x7FF then 2
  else if c.toNat ≤ 0xFFFF then 3
  else 4

/-- Total UTF-8 byte length of a character list (Rust `str::len`). -/
def byteLen (cs : List Char) : Nat := (cs.map charUtf8Len).sum

/-- Rust `char::is_whitespace` / the regex class `\s` (the Unicode
`White_Space` property). -/
def rustIsWhitespace (c : Char) : Bool :=
  let v := c.toNat
  (0x09 ≤ v && v ≤ 0x0D) || v == 0x20 || v == 0x85 || v == 0xA0 ||
  v == 0x1680 || (0x2000 ≤ v && v ≤ 0x200A) || v == 0x2028 || v == 0x2029 ||
  v == 0x202F || v == 0x205F || v == 0x3000

/-- CJK unified ideographs, the regex class `[一-鿿]`. -/
def isCJK (c : Char) : Bool :=
  0x4E00 ≤ c.toNat && c.toNat ≤ 0x9FFF

def isAsciiDigit (c : Char) : Bool := '0' ≤ c && c ≤ '9'

def isAsciiAlpha (c : Char) : Bool := ('A' ≤ c && c ≤ 'Z') || ('a' ≤ c && c ≤ 'z')

def isAsciiAlnum (c : Char) : Bool := isAsciiAlpha c || isAsciiDigit c

/-- Models Rust `char::is_uppercase` on the ASCII fragment (the full Unicode
`Lu` table is out of scope; every input considered here is ASCII at the
positions where this predicate is consulted). -/
def isRustUpper (c : Char) : Bool := 'A' ≤ c && c ≤ 'Z'

/-- Models Rust `char::to_lowercase` / `str::to_lowercase` on the ASCII
fragment (the full Unicode lowering table is out of scope; this maps
`A`-`Z` to `a`-`z` and leaves every other code point unchanged). -/
def toLowerChar (c : Char) : Char :=
  if 'A' ≤ c && c ≤ 'Z' then Char.ofNat (c.toNat + 32) else c

def toLower (cs : List Char) : List Char := cs.map toLowerChar

/-- Chars that the `[^一-鿿A-Za-z0-9\s]+` alternative of the token
regex accepts. -/
def isOtherTok (c : Char) : Bool :=
  !isCJK c && !isAsciiAlnum c && !rustIsWhitespace c

end LX

/-! ## Tokenizer model (`src/tokenizer.rs`) -/

namespace LX

inductive TokenType where
  | word
  | number
  | punctuation
  | acronym
deriving DecidableEq

/-- `tokenizer::Token`: positions are the byte offsets that
`regex::Match::start/end` return. -/
structure Tok where
  index : Nat
  tokenType : TokenType
  startPos : Nat
  endPos : Nat
  firstTokenAfterNewline : Bool
deriving DecidableEq

structure TokenizedTextM where
  text : List Char
  tokens : List Tok
deriving DecidableEq

/-- Substring match of `SLASH_ABBREV_REGEX` (`[A-Za-z0-9]+(?:/[A-Za-z0-9]+)+`):
a substring match exists iff some `/` has an alphanumeric char on both
sides. -/
def containsSlashAbbrev : List Char → Bool
  | a :: b :: c :: rest =>
    (isAsciiAlnum a && b == '/' && isAsciiAlnum c) || containsSlashAbbrev (b :: c :: rest)
  | _ => false

/-- Token classification of `tokenize` (the `is_match` cascade over
`DIGITS_REGEX`, `SLASH_ABBREV_REGEX`, `CHINESE_REGEX`, `WORD_REGEX`).
`WORD_REGEX.is_match` is modelled as containment of an ASCII letter: at
that branch the token (always a single `TOKEN_REGEX` match) contains no
digit and no CJK char, so it matches `(?:...|[A-Za-z]+|...)\b` exactly
when it is a run of ASCII letters. -/
def classify (tk : List Char) : TokenType :=
  if tk.any isAsciiDigit then .number
  else if containsSlashAbbrev tk then .acronym
  else if tk.any isCJK then .word
  else if tk.any isAsciiAlpha then .word
  else .punctuation

/-- The `(?:/[A-Za-z0-9]+)+` tail of the first regex alternative:
greedily consume `/`-joined alphanumeric runs. -/
def slashGroupsAux : Nat → List Char → List Char × List Char
  | 0, cs => ([], cs)
  | fuel + 1, cs =>
    match cs with
    | '/' :: d :: rest =>
      if isAsciiAlnum d then
        let run := (d :: rest).takeWhile isAsciiAlnum
        let rest2 := (d :: rest).dropWhile isAsciiAlnum
        let res := slashGroupsAux fuel rest2
        ('/' :: (run ++ res.1), res.2)
      else ([], cs)
    | _ => ([], cs)

/-- One leftmost-first match of `TOKEN_REGEX` starting at the head of `cs`
(the head is a non-whitespace char when called from `tokenizeAux`):
alternatives are tried in order `slash-acronym | CJK-run | letter-run |
digit-run | other-run`, each greedy.  The slash alternative succeeds
exactly when the maximal alphanumeric run is followed by `/` and another
alphanumeric char (shorter runs cannot backtrack into a `/`). -/
def grabToken : List Char → List Char × List Char
  | [] => ([], [])
  | c :: rest =>
    if isCJK c then ((c :: rest).takeWhile isCJK, (c :: rest).dropWhile isCJK)
    else if isAsciiAlnum c then
      let r := (c :: rest).takeWhile isAsciiAlnum
      let rest1 := (c :: rest).dropWhile isAsciiAlnum
      let slash := match rest1 with
        | '/' :: d :: _ => isAsciiAlnum d
        | _ => false
      if slash then
        let res := slashGroupsAux rest1.length rest1
        (r ++ res.1, res.2)
      else if isAsciiAlpha c then
        ((c :: rest).takeWhile isAsciiAlpha, (c :: rest).dropWhile isAsciiAlpha)
      else
        ((c :: rest).takeWhile isAsciiDigit, (c :: rest).dropWhile isAsciiDigit)
    else ((c :: rest).takeWhile isOtherTok, (c :: rest).dropWhile isOtherTok)

/-- The scan loop of `tokenize`: `p` is the current byte offset, `idx` the
next token index, `sawNL` whether the gap since the previous token
contained `\n` or `\r`.  Fuel is the number of unread chars; every step
consumes at least one char. -/
def tokenizeAux : Nat → List Char → Nat → Nat → Bool → List Tok
  | 0, _, _, _, _ => []
  | _ + 1, [], _, _, _ => []
  | fuel + 1, c :: rest, p, idx, sawNL =>
    if rustIsWhitespace c then
      tokenizeAux fuel rest (p + charUtf8Len c) idx (sawNL || c == '\n' || c == '\r')
    else
      let res := grabToken (c :: rest)
      { index := idx, tokenType := classify res.1, startPos := p,
        endPos := p + byteLen res.1,
        firstTokenAfterNewline := decide (0 < idx) && sawNL } ::
        tokenizeAux fuel res.2 (p + byteLen res.1) (idx + 1) false

/-- `tokenizer::tokenize`. -/
def tokenize (t : List Char) : List Tok := tokenizeAux t.length t 0 0 false

def tokenizedText (t : List Char) : TokenizedTextM := ⟨t, tokenize t⟩

/-- Count of code points of `t` that lie wholly before byte offset `p`
(used to compare byte offsets with code-point offsets). -/
def charsBeforeByte : List Char → Nat → Nat
  | [], _ => 0
  | c :: cs, p =>
    if charUtf8Len c ≤ p then 1 + charsBeforeByte cs (p - charUtf8Len c) else 0

/-- Byte-range slice `&text[s..e]` for char-aligned offsets: keep the chars
whose byte span lies inside `[s, e)` (on aligned offsets, as produced by
the tokenizer, this is the contiguous substring the Rust slice yields). -/
def sliceBAux : List Char → Nat → Nat → Nat → List Char
  | [], _, _, _ => []
  | c :: cs, p, s, e =>
    let p2 := p + charUtf8Len c
    if s ≤ p && p2 ≤ e then c :: sliceBAux cs p2 s e else sliceBAux cs p2 s e

def sliceB (t : List Char) (s e : Nat) : List Char := sliceBAux t 0 s e

inductive TokErr where
  | invalidTokenInterval
  | sentenceRangeError
deriving DecidableEq

structure TokenIntervalT where
  startIndex : Nat
  endIndex : Nat
deriving DecidableEq

/-- `tokenizer::tokens_text`. -/
def tokensText (tt : TokenizedTextM) (iv : TokenIntervalT) : Except TokErr (List Char) :=
  if iv.startIndex ≥ iv.endIndex || iv.endIndex > tt.tokens.length then
    .error .invalidTokenInterval
  else
    match tt.tokens.get? iv.startIndex, tt.tokens.get? (iv.endIndex - 1) with
    | some st, some en => .ok (sliceB tt.text st.startPos en.endPos)
    | _, _ => .error .invalidTokenInterval

def endOfSentenceChars : List Char := ['.', '?', '!', '。', '？', '！']

def knownAbbreviations : List (List Char) :=
  ["Mr.".data, "Mrs.".data, "Ms.".data, "Dr.".data, "Prof.".data, "St.".data]

/-- `tokenizer::is_end_of_sentence_token`.  `END_OF_SENTENCE_REGEX` is
`[.?!。？！]$`, i.e. the token's last char is a sentence terminator; a
combined `prev ++ current` text matching a known abbreviation is
exempted.  (The source indexes `tokens[current_idx]` unchecked; the loop
only calls it in range, and out-of-range is modelled as `false`.) -/
def isEndOfSentenceToken (text : List Char) (tokens : List Tok) (i : Nat) : Bool :=
  match tokens.get? i with
  | none => false
  | some tok =>
    let tokenText := sliceB text tok.startPos tok.endPos
    match tokenText.getLast? with
    | none => false
    | some c =>
      if endOfSentenceChars.contains c then
        if 0 < i then
          match tokens.get? (i - 1) with
          | some prev =>
            let prevText := sliceB text prev.startPos prev.endPos
            !(knownAbbreviations.contains (prevText ++ tokenText))
          | none => true
        else true
      else false

/-- `tokenizer::is_sentence_break_after_newline`. -/
def isSentenceBreakAfterNewline (text : List Char) (tokens : List Tok) (i : Nat) : Bool :=
  if i + 1 ≥ tokens.length then false
  else
    match tokens.get? i, tokens.get? (i + 1) with
    | some cur, some nxt =>
      let gap := sliceB text cur.endPos nxt.startPos
      if !gap.contains '\n' then false
      else
        match (sliceB text nxt.startPos nxt.endPos).head? with
        | some c => isRustUpper c
        | none => false
    | _, _ => false

/-- Combined break condition of the `find_sentence_range` loop: either of
its two early returns fires at token `i`. -/
def sentBreakAt (text : List Char) (tokens : List Tok) (i : Nat) : Bool :=
  ((match tokens.get? i with
    | some tok => decide (tok.tokenType = .punctuation)
    | none => false) && isEndOfSentenceToken text tokens i) ||
  isSentenceBreakAfterNewline text tokens i

/-- The `while i < tokens.len()` loop of `find_sentence_range`, with fuel
(`tokens.length - i` suffices). -/
def findBreakAux (text : List Char) (tokens : List Tok) : Nat → Nat → Nat
  | 0, _ => tokens.length
  | fuel + 1, i =>
    if i ≥ tokens.length then tokens.length
    else if sentBreakAt text tokens i then i + 1
    else findBreakAux text tokens fuel (i + 1)

/-- `tokenizer::find_sentence_range`. -/
def findSentenceRange (text : List Char) (tokens : List Tok) (start : Nat) :
    Except TokErr TokenIntervalT :=
  if start ≥ tokens.length then .error .sentenceRangeError
  else .ok ⟨start, findBreakAux text tokens (tokens.length - start) start⟩

end LX

/-! ## Chunker model (`src/chunking.rs`) -/

namespace LX

/-- `data::CharInterval` (both positions optional). -/
structure DCharInterval where
  startPos : Option Nat
  endPos : Option Nat
deriving DecidableEq

inductive ChunkErr where
  | tokenUtil
deriving DecidableEq

/-- `chunking::get_char_interval`.  (The source indexes
`tokens[start_index]` / `tokens[end_index - 1]` unchecked and would panic
out of range; the chunker only calls it with `end_index ≤ token count`,
and the out-of-range case is modelled as the same error.) -/
def getCharInterval (tt : TokenizedTextM) (iv : TokenIntervalT) :
    Except ChunkErr DCharInterval :=
  if iv.startIndex ≥ iv.endIndex then .error .tokenUtil
  else
    match tt.tokens.get? iv.startIndex, tt.tokens.get? (iv.endIndex - 1) with
    | some st, some en => .ok ⟨some st.startPos, some en.endPos⟩
    | _, _ => .error .tokenUtil

/-- `chunking::get_token_interval_text`. -/
def getTokenIntervalText (tt : TokenizedTextM) (iv : TokenIntervalT) :
    Except ChunkErr (List Char) :=
  if iv.startIndex ≥ iv.endIndex then .error .tokenUtil
  else
    match tokensText tt iv with
    | .error _ => .error .tokenUtil
    | .ok s => if tt.text ≠ [] ∧ s = [] then .error .tokenUtil else .ok s

/-- `TextChunk::chunk_text().unwrap_or_default()` as the annotator uses it. -/
def chunkTextOrDefault (tt : TokenizedTextM) (iv : TokenIntervalT) : List Char :=
  match getTokenIntervalText tt iv with
  | .ok s => s
  | .error _ => []

/-- `ChunkIterator::tokens_exceed_buffer`. -/
def tokensExceedBuffer (tt : TokenizedTextM) (B : Nat) (iv : TokenIntervalT) : Bool :=
  match getCharInterval tt iv with
  | .ok ci => decide (ci.endPos.getD 0 - ci.startPos.getD 0 > B)
  | .error _ => false

/-- `SentenceIterator::next`: the iterator's whole state is its current
token position. -/
def sentNext (tt : TokenizedTextM) (pos : Nat) : Option TokenIntervalT :=
  if pos ≥ tt.tokens.length then none
  else
    match findSentenceRange tt.text tt.tokens pos with
    | .ok r => some ⟨pos, r.endIndex⟩
    | .error _ => none

/-- `ChunkIterator` state: sentence-iterator position and the
`broken_sentence` flag. -/
structure CIState where
  pos : Nat
  broken : Bool
deriving DecidableEq

/-- The `for token_index in curr_chunk.start_index..sentence.end_index`
loop of `ChunkIterator::next`: `.inl` is the early return (chunk plus new
iterator state), `.inr` the fall-through value of `curr_chunk`.  Fuel
`sentEnd - start` suffices. -/
def chunkForLoop (tt : TokenizedTextM) (B : Nat) (sentEnd : Nat) :
    Nat → TokenIntervalT → Option Nat → Nat →
    Sum (TokenIntervalT × CIState) TokenIntervalT
  | 0, curr, _, _ => .inr curr
  | fuel + 1, curr, startOfNewLine, tokenIndex =>
    if tokenIndex ≥ sentEnd then .inr curr
    else
      let startOfNewLine :=
        if (tt.tokens.get? tokenIndex).elim false (·.firstTokenAfterNewline) then
          some tokenIndex
        else startOfNewLine
      let test : TokenIntervalT := ⟨curr.startIndex, tokenIndex + 1⟩
      if tokensExceedBuffer tt B test then
        let cut :=
          match startOfNewLine with
          | some nl => if 0 < nl then (⟨curr.startIndex, nl⟩ : TokenIntervalT) else curr
          | none => curr
        .inl (cut, ⟨cut.endIndex, true⟩)
      else chunkForLoop tt B sentEnd fuel test startOfNewLine (tokenIndex + 1)

/-- The `while let Some(sentence) = self.sentence_iter.peek()` loop of
`ChunkIterator::next` (greedy folding of whole sentences).  The sentence
position strictly increases each round, so fuel `token count + 1`
suffices; exhausted fuel returns the same shape as the peek-`None` exit. -/
def chunkWhileLoop (tt : TokenizedTextM) (B : Nat) :
    Nat → TokenIntervalT → Nat → TokenIntervalT × CIState
  | 0, curr, pos => (curr, ⟨pos, false⟩)
  | fuel + 1, curr, pos =>
    match sentNext tt pos with
    | none => (curr, ⟨pos, false⟩)
    | some sent2 =>
      let test : TokenIntervalT := ⟨curr.startIndex, sent2.endIndex⟩
      if tokensExceedBuffer tt B test then (curr, ⟨curr.endIndex, false⟩)
      else chunkWhileLoop tt B fuel test sent2.endIndex

/-- `ChunkIterator::next`. -/
def chunkNext (tt : TokenizedTextM) (B : Nat) (st : CIState) :
    Option (TokenIntervalT × CIState) :=
  match sentNext tt st.pos with
  | none => none
  | some sentence =>
    let curr0 : TokenIntervalT := ⟨sentence.startIndex, sentence.startIndex + 1⟩
    if tokensExceedBuffer tt B curr0 then
      some (curr0, ⟨sentence.startIndex + 1, decide (curr0.endIndex < sentence.endIndex)⟩)
    else
      match chunkForLoop tt B sentence.endIndex (sentence.endIndex - sentence.startIndex)
          curr0 none sentence.startIndex with
      | .inl (chunk, st') => some (chunk, st')
      | .inr curr =>
        if st.broken then some (curr, ⟨sentence.endIndex, false⟩)
        else some (chunkWhileLoop tt B (tt.tokens.length + 1) curr sentence.endIndex)

/-- Iterating `ChunkIterator::next` for at most `fuel` chunks (the
iterator need not terminate, so the produced list is a prefix of the real
chunk stream; any chunk the iterator ever yields appears for some fuel). -/
def chunkStream (tt : TokenizedTextM) (B : Nat) : Nat → CIState → List TokenIntervalT
  | 0, _ => []
  | fuel + 1, st =>
    match chunkNext tt B st with
    | none => []
    | some (c, st') => c :: chunkStream tt B fuel st'

/-- All chunks (token intervals) the chunker yields for a document text
within `fuel` steps. -/
def documentChunks (t : List Char) (B fuel : Nat) : List TokenIntervalT :=
  chunkStream (tokenizedText t) B fuel ⟨0, false⟩

end LX

/-! ## Resolver model (`src/resolver.rs`)

JSON / YAML values are modelled by `MJson`; numbers are modelled as
integers (serde's float numbers play no role in any claim here).  The
serde parser itself is not re-implemented: a `Resolver` carries its
parser as a function `List Char → Except RErr MJson`, mirroring the fact
that `extract_and_parse_content` delegates to `serde_json` /
`serde_yaml`.  JSON objects and the `HashMap` groups are association
lists in iteration order. -/

namespace LX

inductive MJson where
  | null
  | bool (b : Bool)
  | num (n : Int)
  | str (s : String)
  | arr (xs : List MJson)
  | obj (fields : List (String × MJson))

def MJson.isNumber : MJson → Bool
  | .num _ => true
  | _ => false

def MJson.isNull : MJson → Bool
  | .null => true
  | _ => false

def MJson.isObj : MJson → Bool
  | .obj _ => true
  | _ => false

def MJson.asArray? : MJson → Option (List MJson)
  | .arr xs => some xs
  | _ => none

def MJson.asObject? : MJson → Option (List (String × MJson))
  | .obj fields => some fields
  | _ => none

/-- `Map::get` on a parsed JSON object / `HashMap::get` on a group
(keys are unique, so first-match lookup is exact). -/
def jGet (fields : List (String × MJson)) (k : String) : Option MJson :=
  (fields.find? (fun p => p.1 == k)).map Prod.snd

/-- Rust `str::ends_with`. -/
def endsWithS (s suffix : String) : Bool := suffix.data.isSuffixOf s.data

/-- `ResolverError`, collapsed to its variants (messages dropped):
`Parse` for parse errors, `other` for the `Other` variant, `serde` for
`Json`/`Yaml` parser failures. -/
inductive RErr where
  | parse
  | serde
  | other
deriving DecidableEq

/-- The `Resolver` struct plus its (abstracted) serde parser. -/
structure ResolverCfg where
  fenceOutput : Bool
  extractionIndexSuffix : Option String
  extractionAttributesSuffix : Option String
  formatIsYaml : Bool
  parse : List Char → Except RErr MJson

/-- Rust `str::trim` (Unicode whitespace from both ends). -/
def trimChars (cs : List Char) : List Char :=
  ((cs.dropWhile rustIsWhitespace).reverse.dropWhile rustIsWhitespace).reverse

/-- First occurrence index of `pat` as a contiguous sublist
(`str::find` on the ASCII fence markers; indices are char counts, which
coincide with the source's byte offsets because the text is only ever cut
at these ASCII-aligned match boundaries). -/
def findSublist (pat : List Char) : List Char → Option Nat
  | [] => if pat.isEmpty then some 0 else none
  | c :: rest =>
    if pat.isPrefixOf (c :: rest) then some 0
    else (findSublist pat rest).map (· + 1)

/-- `Resolver::extract_fenced_content`. -/
def extractFencedContent (cfg : ResolverCfg) (input : List Char) :
    Except RErr (List Char) :=
  let leftKey := if cfg.formatIsYaml then "```yaml".data else "```json".data
  match findSublist leftKey input with
  | some start =>
    let afterStart := input.drop (start + leftKey.length)
    match findSublist ("```".data) afterStart with
    | some endRel => .ok (trimChars (afterStart.take endRel))
    | none => .error .parse
  | none => .error .parse

/-- `Resolver::extract_and_parse_content`. -/
def extractAndParseContent (cfg : ResolverCfg) (input : List Char) :
    Except RErr MJson :=
  if (trimChars input).isEmpty then .error .parse
  else do
    let content ← if cfg.fenceOutput then extractFencedContent cfg input else .ok input
    cfg.parse content

/-- The DeepSeek-format detection in `string_to_extraction_data`: the
first array item has a key that is not `extraction_class`, not
`extraction_text` and does not end with the literal `_attributes`. -/
def hasCategoryFields (firstObj : List (String × MJson)) : Bool :=
  firstObj.any (fun p =>
    !(endsWithS p.1 "_attributes") && p.1 != "extraction_class" && p.1 != "extraction_text")

/-- The per-item body of the DeepSeek branch of
`string_to_extraction_data`. -/
def deepSeekItem (cfg : ResolverCfg) (itemObj : List (String × MJson)) :
    List (List (String × MJson)) :=
  itemObj.filterMap (fun p =>
    let shouldSkip := endsWithS p.1 "_attributes" ||
      (match cfg.extractionIndexSuffix with
       | some suf => endsWithS p.1 suf
       | none => false)
    if shouldSkip then none
    else
      let base := [("extraction_class", MJson.str p.1), ("extraction_text", p.2)]
      let withIdx :=
        match cfg.extractionIndexSuffix with
        | some suf =>
          match jGet itemObj (p.1 ++ suf) with
          | some idxVal => base ++ [("extraction_text" ++ suf, idxVal)]
          | none => base
        | none => base
      let withAttr :=
        match cfg.extractionAttributesSuffix with
        | some suf =>
          match jGet itemObj (p.1 ++ suf) with
          | some attrVal => withIdx ++ [("extraction_text" ++ suf, attrVal)]
          | none => withIdx
        | none => withIdx
      some withAttr)

/-- `Resolver::string_to_extraction_data` (the schema normalization). -/
def stringToExtractionData (cfg : ResolverCfg) (input : List Char) :
    Except RErr (List (List (String × MJson))) := do
  let parsed ← extractAndParseContent cfg input
  match parsed.asArray? with
  | some array =>
    -- Simple array format: one group keyed "text" / "text_<i>".
    .ok [array.enum.map (fun p =>
      let key := if array.length = 1 then "text" else "text_" ++ toString p.1
      (key, p.2))]
  | none =>
    match parsed.asObject? with
    | some obj =>
      match jGet obj "extractions" with
      | some extractions =>
        match extractions.asArray? with
        | none => .error .parse
        | some arr =>
          let deepSeek :=
            match arr.head? with
            | some (.obj firstObj) => hasCategoryFields firstObj
            | _ => false
          if deepSeek then
            .ok (arr.flatMap (fun item =>
              match item with
              | .obj itemObj => deepSeekItem cfg itemObj
              | _ => []))
          else
            .ok (arr.map (fun item =>
              match item with
              | .obj m => m
              | .str t => [("text", MJson.str t)]
              | other => [("text", other)]))
      | none =>
        -- Nested category format.
        .ok (obj.flatMap (fun p =>
          match p.2 with
          | .arr items =>
            items.map (fun item =>
              [("extraction_class", MJson.str p.1), ("extraction_text", item)])
          | single => [[("extraction_class", MJson.str p.1), ("extraction_text", single)]]))
    | none => .error .parse

/-- `resolver::data::CharInterval` (both positions required). -/
structure RCharInterval where
  startPos : Nat
  endPos : Nat
deriving DecidableEq

/-- `resolver::data::AlignmentStatus` (note: no `MatchGreater` variant
exists in the resolver's own enum). -/
inductive AlignStatus where
  | matchExact
  | matchLesser
  | matchFuzzy
deriving DecidableEq

/-- `resolver::data::Extraction`. -/
structure RExtraction where
  extractionClass : String
  extractionText : String
  extractionIndex : Nat
  groupIndex : Nat
  attributes : Option MJson
  tokenInterval : Option TokenIntervalT
  charInterval : Option RCharInterval
  alignmentStatus : Option AlignStatus

/-- `data::Extraction::new`. -/
def RExtraction.make (cls txt : String) (idx grp : Nat) (attrs : Option MJson) :
    RExtraction :=
  ⟨cls, txt, idx, grp, attrs, none, none, none⟩

/-- `Resolver::convert_to_text`. -/
def convertToText : MJson → Except RErr String
  | .str s => .ok s
  | .num n => .ok (toString n)
  | .bool b => .ok (if b then "true" else "false")
  | .null => .ok ""
  | .arr _ => .error .other
  | .obj _ => .error .other

/-- `Resolver::get_extraction_index`: returns the index together with the
updated `default_index_counter`. -/
def getExtractionIndex (group : List (String × MJson)) (key : String)
    (indexSuffix : Option String) (counter : Nat) : Except RErr (Nat × Nat) :=
  match indexSuffix with
  | some suf =>
    match jGet group (key ++ suf) with
    | some idxVal =>
      match idxVal with
      | .num n => if 0 ≤ n then .ok (n.toNat, counter) else .error .other
      | _ => .error .other
    | none => .ok (counter + 1, counter + 1)
  | none => .ok (counter + 1, counter + 1)

/-- `Resolver::get_attributes`. -/
def getAttributes (group : List (String × MJson)) (key : String)
    (attributesSuffix : Option String) : Except RErr (Option MJson) :=
  match attributesSuffix with
  | some suf =>
    match jGet group (key ++ suf) with
    | some v => if v.isObj || v.isNull then .ok (some v) else .error .other
    | none => .ok none
  | none => .ok none

/-- The index-value validation at the top of
`extract_ordered_extractions_impl`. -/
def validateIndexValues (indexSuffix : Option String)
    (group : List (String × MJson)) : Except RErr Unit :=
  match indexSuffix with
  | some suf =>
    if group.all (fun p => !(endsWithS p.1 suf) || p.2.isNumber) then .ok ()
    else .error .other
  | none => .ok ()

/-- The legacy-format inner loop of `extract_ordered_extractions_impl`
(each non-suffix key becomes one extraction). -/
def legacyLoop (indexSuffix attributesSuffix : Option String)
    (group : List (String × MJson)) (groupIndex : Nat) :
    List (String × MJson) → Nat → Except RErr (List RExtraction × Nat)
  | [], counter => .ok ([], counter)
  | (key, value) :: rest, counter =>
    if (match indexSuffix with | some suf => endsWithS key suf | none => false) then
      legacyLoop indexSuffix attributesSuffix group groupIndex rest counter
    else if (match attributesSuffix with | some suf => endsWithS key suf | none => false) then
      legacyLoop indexSuffix attributesSuffix group groupIndex rest counter
    else do
      let txt ← convertToText value
      let (idx, counter2) ← getExtractionIndex group key indexSuffix counter
      let attrs ← getAttributes group key attributesSuffix
      let (tail, counterF) ←
        legacyLoop indexSuffix attributesSuffix group groupIndex rest counter2
      .ok (RExtraction.make key txt idx groupIndex attrs :: tail, counterF)

/-- One group of `extract_ordered_extractions_impl`. -/
def processGroup (indexSuffix attributesSuffix : Option String)
    (groupIndex : Nat) (group : List (String × MJson)) (counter : Nat) :
    Except RErr (List RExtraction × Nat) := do
  validateIndexValues indexSuffix group
  if (jGet group "extraction_class").isSome && (jGet group "extraction_text").isSome then
    let cls ←
      match jGet group "extraction_class" with
      | some (.str s) => Except.ok s
      | _ => Except.error RErr.parse
    let txtVal ←
      match jGet group "extraction_text" with
      | some v => Except.ok v
      | none => Except.error RErr.parse
    let txt ← convertToText txtVal
    let (idx, counter2) ← getExtractionIndex group "extraction_text" indexSuffix counter
    let attrs ← getAttributes group "extraction_text" attributesSuffix
    .ok ([RExtraction.make cls txt idx groupIndex attrs], counter2)
  else
    legacyLoop indexSuffix attributesSuffix group groupIndex group counter

def extractGroupsLoop (indexSuffix attributesSuffix : Option String) :
    List (List (String × MJson)) → Nat → Nat → Except RErr (List RExtraction)
  | [], _, _ => .ok []
  | group :: rest, groupIndex, counter => do
    let (exts, counter2) ← processGroup indexSuffix attributesSuffix groupIndex group counter
    let tail ← extractGroupsLoop indexSuffix attributesSuffix rest (groupIndex + 1) counter2
    .ok (exts ++ tail)

/-- The `(extraction_index, group_index)` sort key order of
`extract_ordered_extractions_impl`. -/
def extLe (a b : RExtraction) : Prop :=
  a.extractionIndex < b.extractionIndex ∨
    (a.extractionIndex = b.extractionIndex ∧ a.groupIndex ≤ b.groupIndex)

instance : DecidableRel extLe := fun a b => by unfold extLe; infer_instance

instance : IsTotal RExtraction extLe :=
  ⟨fun a b => by unfold extLe; omega⟩

instance : IsTrans RExtraction extLe :=
  ⟨fun a b c hab hbc => by unfold extLe at *; omega⟩

/-- `Resolver::extract_ordered_extractions_impl`.  The final
`sort_by_key(|e| (e.extraction_index, e.group_index))` is a stable sort,
modelled by the (equally stable) insertion sort. -/
def extractOrderedExtractionsImpl (indexSuffix attributesSuffix : Option String)
    (extractionData : List (List (String × MJson))) : Except RErr (List RExtraction) := do
  let processed ← extractGroupsLoop indexSuffix attributesSuffix extractionData 0 0
  .ok (List.insertionSort extLe processed)

/-- `<Resolver as AbstractResolver>::resolve`. -/
def resolve (cfg : ResolverCfg) (inputText : List Char) (suppressParseErrors : Bool) :
    Except RErr (List RExtraction) :=
  match stringToExtractionData cfg inputText with
  | .ok parsed =>
    extractOrderedExtractionsImpl cfg.extractionIndexSuffix cfg.extractionAttributesSuffix parsed
  | .error e => if suppressParseErrors then .ok [] else .error e

end LX

/-! ## Aligner model (`src/resolver.rs`, `tokenizer` submodule and
`WordAligner`)

The resolver has its own naive whitespace tokenizer whose spans come from
`char_indices` (byte offsets).  The fuzzy matcher's `f64` ratios are
modelled with `ℚ` (every property proved here is insensitive to float
rounding: only which window wins could shift, never the shape of the
result). -/

namespace LX

/-- `resolver::tokenizer::Token`. -/
structure WToken where
  text : List Char
  startPos : Nat
  endPos : Nat
deriving DecidableEq

/-- `resolver::tokenizer::tokenize` (whitespace tokenizer with byte
spans); fuel is the number of unread chars. -/
def wsTokenizeAux : Nat → List Char → Nat → List WToken
  | 0, _, _ => []
  | _ + 1, [], _ => []
  | fuel + 1, c :: rest, p =>
    if rustIsWhitespace c then wsTokenizeAux fuel rest (p + charUtf8Len c)
    else
      let run := (c :: rest).takeWhile (fun ch => !rustIsWhitespace ch)
      let rest' := (c :: rest).dropWhile (fun ch => !rustIsWhitespace ch)
      ⟨run, p, p + byteLen run⟩ :: wsTokenizeAux fuel rest' (p + byteLen run)

def wsTokenize (t : List Char) : List WToken := wsTokenizeAux t.length t 0

/-- The extraction text preprocessing of `align_single_extraction`:
`split_whitespace` then lowercase each piece. -/
def extractionTokens (text : List Char) : List (List Char) :=
  (wsTokenize text).map (fun t => toLower t.text)

/-- `WordAligner::find_exact_match`. -/
def findExactMatch (needle haystack : List (List Char)) : Option Nat :=
  if needle.isEmpty || haystack.length < needle.length then none
  else
    (List.range (haystack.length - needle.length + 1)).find? (fun start =>
      decide ((haystack.drop start).take needle.length = needle))

/-- `normalize_token`: lowercase plus light plural stemming (`s.len()` is
the byte length). -/
def normalizeToken (tok : List Char) : List Char :=
  let s := toLower tok
  if decide (3 < byteLen s) && ['s'].isSuffixOf s && !(['s', 's'].isSuffixOf s) then
    s.dropLast
  else s

def countOcc (l : List (List Char)) (x : List Char) : Nat :=
  (l.filter (fun y => y == x)).length

/-- `WordAligner::calculate_overlap`: multiset overlap, summed over the
distinct extraction tokens. -/
def calculateOverlap (extNorm window : List (List Char)) : Nat :=
  (extNorm.dedup.map (fun tk => min (countOcc extNorm tk) (countOcc window tk))).sum

/-- `WordAligner::find_fuzzy_match`: window sizes ascending from the
extraction's token count, starts ascending; the best strictly-improving
ratio wins; the span is returned only if the best ratio meets the
threshold. -/
def findFuzzyMatch (extToks sourceTokens : List (List Char)) (threshold : ℚ) :
    Option (Nat × Nat) :=
  let extNorm := extToks.map normalizeToken
  let n := extNorm.length
  let minOverlap := (Rat.ceil ((n : ℚ) * threshold)).toNat
  let pairs := (List.range (sourceTokens.length + 1 - n)).flatMap (fun wOff =>
    let w := n + wOff
    (List.range (sourceTokens.length + 1 - w)).map (fun s => (w, s)))
  let step := fun (best : ℚ × Option (Nat × Nat)) (p : Nat × Nat) =>
    let window := ((sourceTokens.drop p.2).take p.1).map normalizeToken
    let overlap := calculateOverlap extNorm window
    if minOverlap ≤ overlap then
      let ratio : ℚ := (overlap : ℚ) / (n : ℚ)
      if best.1 < ratio then (ratio, some (p.2, p.1)) else best
    else best
  let bestPair := pairs.foldl step (0, none)
  if threshold ≤ bestPair.1 then bestPair.2 else none

/-- `WordAligner::create_aligned_extraction`. -/
def createAlignedExtraction (extraction : RExtraction) (startIdx length : Nat)
    (sourceToks : List WToken) (tokenOffset charOffset : Nat)
    (status : AlignStatus) : RExtraction :=
  let base :=
    { extraction with
      tokenInterval := some ⟨startIdx + tokenOffset, startIdx + length + tokenOffset⟩ }
  let withChar :=
    if startIdx < sourceToks.length && startIdx + length ≤ sourceToks.length then
      match sourceToks.get? startIdx, sourceToks.get? (startIdx + length - 1) with
      | some st, some en =>
        { base with
          charInterval := some ⟨charOffset + st.startPos, charOffset + en.endPos⟩ }
      | _, _ => base
    else base
  { withChar with alignmentStatus := some status }

/-- `WordAligner::align_single_extraction`. -/
def alignSingleExtraction (extraction : RExtraction)
    (sourceTokens : List (List Char)) (sourceToks : List WToken)
    (tokenOffset charOffset : Nat) (enableFuzzy : Bool) (threshold : ℚ) :
    RExtraction :=
  let extToks := extractionTokens extraction.extractionText.data
  if extToks.isEmpty then extraction
  else
    match findExactMatch extToks sourceTokens with
    | some pos =>
      createAlignedExtraction extraction pos extToks.length sourceToks
        tokenOffset charOffset .matchExact
    | none =>
      if enableFuzzy then
        match findFuzzyMatch extToks sourceTokens threshold with
        | some (s, w) =>
          createAlignedExtraction extraction s w sourceToks
            tokenOffset charOffset .matchFuzzy
        | none => extraction
      else extraction

/-- `WordAligner::align_extractions` (`_accept_match_lesser` is an unused
parameter in the source and is kept here verbatim). -/
def alignExtractions (extractionGroups : List (List RExtraction))
    (sourceText : List Char) (tokenOffset charOffset : Nat)
    (enableFuzzy : Bool) (threshold : ℚ) (acceptMatchLesser : Bool) :
    List (List RExtraction) :=
  let sourceToks := wsTokenize sourceText
  let sourceTokens := sourceToks.map (fun t => toLower t.text)
  let _ := acceptMatchLesser
  extractionGroups.map (fun group =>
    group.map (fun e =>
      alignSingleExtraction e sourceTokens sourceToks tokenOffset charOffset
        enableFuzzy threshold))

/-- `<Resolver as AbstractResolver>::align`. -/
def resolverAlign (extractions : List RExtraction) (sourceText : List Char)
    (tokenOffset : Nat) (charOffset : Option Nat) (enableFuzzy : Bool)
    (threshold : ℚ) (acceptMatchLesser : Bool) : List RExtraction :=
  if extractions.isEmpty then []
  else
    let groups := [extractions]
    let aligned := alignExtractions groups sourceText tokenOffset
      (charOffset.getD 0) enableFuzzy threshold acceptMatchLesser
    aligned.flatten

end LX

/-! ## Annotator model (`src/annotation.rs`, with `src/data.rs` types)

`annotate_documents_single_pass` is generic over the language model (a
trait) and takes the resolver as a trait object, so inference, prompt
rendering, resolving and aligning enter the model as function
parameters.  Document ids are modelled as given strings (the source
lazily generates a UUID when absent; only identity matters here). -/

namespace LX

/-- `data::AlignmentStatus` (this enum does have `MatchGreater`). -/
inductive DAlignStatus where
  | matchExact
  | matchGreater
  | matchLesser
  | matchFuzzy
deriving DecidableEq

inductive AttributeValue where
  | single (s : String)
  | multiple (xs : List String)
deriving DecidableEq

/-- `data::Extraction`. -/
structure DExtraction where
  extractionClass : String
  extractionText : String
  charInterval : Option DCharInterval
  alignmentStatus : Option DAlignStatus
  extractionIndex : Option Nat
  groupIndex : Option Nat
  description : Option String
  attributes : Option (List (String × AttributeValue))
  tokenInterval : Option TokenIntervalT
deriving DecidableEq

/-- Rust's derived `PartialOrd` `<` on `Option<usize>`:
`None < Some(_)`, and `Some a < Some b ↔ a < b`. -/
def optLt : Option Nat → Option Nat → Bool
  | none, none => false
  | none, some _ => true
  | some _, none => false
  | some a, some b => decide (a < b)

/-- `annotation::extractions_overlap` (the `start1 < end2 && start2 < end1`
comparisons are on `Option<usize>` values). -/
def extractionsOverlap (e1 e2 : DExtraction) : Bool :=
  match e1.charInterval with
  | none => false
  | some i1 =>
    match e2.charInterval with
    | none => false
    | some i2 => optLt i1.startPos i2.endPos && optLt i2.startPos i1.endPos

/-- The per-extraction body of the `merge_non_overlapping_extractions`
loops: check the candidate against every already-accepted extraction that
has a char interval, append when nothing overlaps. -/
def mergeStep (merged : List DExtraction) (extraction : DExtraction) :
    List DExtraction :=
  let overlaps :=
    match extraction.charInterval with
    | some _ => merged.any (fun existing =>
        existing.charInterval.isSome && extractionsOverlap extraction existing)
    | none => false
  if overlaps then merged else merged ++ [extraction]

/-- One later pass of `merge_non_overlapping_extractions`. -/
def mergePass (merged passExtractions : List DExtraction) : List DExtraction :=
  passExtractions.foldl mergeStep merged

/-- `annotation::merge_non_overlapping_extractions`. -/
def mergeNonOverlappingExtractions (allExtractions : List (List DExtraction)) :
    List DExtraction :=
  match allExtractions with
  | [] => []
  | [first] => first
  | first :: restPasses => restPasses.foldl mergePass first

/-- The `resolver::data::Extraction` → `data::Extraction` conversion at
the end of the per-chunk loop in `annotate_documents_single_pass`. -/
def convertExtraction (e : RExtraction) : DExtraction :=
  { extractionClass := e.extractionClass
    extractionText := e.extractionText
    tokenInterval := e.tokenInterval
    charInterval := e.charInterval.map (fun ci => ⟨some ci.startPos, some ci.endPos⟩)
    alignmentStatus := e.alignmentStatus.map (fun s =>
      match s with
      | .matchExact => DAlignStatus.matchExact
      | .matchLesser => DAlignStatus.matchLesser
      | .matchFuzzy => DAlignStatus.matchFuzzy)
    extractionIndex := some e.extractionIndex
    groupIndex := some e.groupIndex
    description := none
    attributes := none }

structure MDoc where
  documentId : String
  text : List Char
deriving DecidableEq

structure MAnnotatedDoc where
  documentId : String
  extractions : List DExtraction
  text : List Char
deriving DecidableEq

/-- `inference::ScoredOutput` (the annotator never reads the score). -/
structure MScoredOutput where
  output : Option (List Char)
deriving DecidableEq

inductive AnnErr where
  | documentRepeat
  | inference
  | emptyScoredOutputs
  /-- the `assert!` in the document-cursor loop (a panic in the source) -/
  | missingDocumentForChunk
deriving DecidableEq

/-- The `AbstractResolver` trait object the annotator receives. -/
structure MResolver where
  resolve : List Char → Bool → Except RErr (List RExtraction)
  align : List RExtraction → List Char → Nat → Option Nat → Bool → ℚ → Bool →
    List RExtraction

/-- The `BaseLanguageModel` trait: one batched `infer`. -/
structure MLanguageModel where
  infer : List (List Char) → Except AnnErr (List (List MScoredOutput))

structure TextChunkM where
  tokenInterval : TokenIntervalT
  doc : MDoc
deriving DecidableEq

/-- `annotation::document_chunk_iterator` with `restrict_repeats = true`
(as `annotate_documents_single_pass` calls it); `fuel` bounds the chunk
iterator of each document. -/
def docChunkIterAux (maxCharBuffer fuel : Nat) :
    List MDoc → List String → Except AnnErr (List TextChunkM)
  | [], _ => .ok []
  | doc :: rest, visited =>
    if visited.contains doc.documentId then .error .documentRepeat
    else do
      let tt := tokenizedText doc.text
      let chunks := (chunkStream tt maxCharBuffer fuel ⟨0, false⟩).map
        (fun iv => TextChunkM.mk iv doc)
      let tail ← docChunkIterAux maxCharBuffer fuel rest (doc.documentId :: visited)
      .ok (chunks ++ tail)

/-- `chunking::make_batches_of_textchunk` (Rust `slice::chunks`; a zero
batch length panics in the source and yields no batches here). -/
def makeBatchesAux {α : Type} : Nat → Nat → List α → List (List α)
  | _, 0, _ => []
  | 0, _, _ => []
  | _ + 1, _, [] => []
  | fuel + 1, n, xs => xs.take n :: makeBatchesAux fuel n (xs.drop n)

def makeBatches {α : Type} (n : Nat) (xs : List α) : List (List α) :=
  makeBatchesAux xs.length n xs

def chunkTextOf (c : TextChunkM) : List Char :=
  chunkTextOrDefault (tokenizedText c.doc.text) c.tokenInterval

/-- The chunk's char offset as the annotator computes it
(`char_interval().start_pos.unwrap_or(0)`, errors mapped to 0). -/
def chunkCharOffset (c : TextChunkM) : Nat :=
  match getCharInterval (tokenizedText c.doc.text) c.tokenInterval with
  | .ok ci => ci.startPos.getD 0
  | .error _ => 0

/-- In-flight state of `annotate_documents_single_pass`: document cursor,
remaining documents, per-document accumulator, finished documents. -/
structure SPState where
  currDoc : MDoc
  restDocs : List MDoc
  accExts : List DExtraction
  outDocs : List MAnnotatedDoc
deriving DecidableEq

/-- The `while current_doc_id != text_chunk.document_id()` cursor loop:
emit the current document and advance until the ids match (fuel
`restDocs.length + 1` always suffices). -/
def advanceCursor : Nat → SPState → String → Except AnnErr SPState
  | 0, _, _ => .error .missingDocumentForChunk
  | fuel + 1, st, chunkDocId =>
    if st.currDoc.documentId == chunkDocId then .ok st
    else
      match st.restDocs with
      | [] => .error .missingDocumentForChunk
      | d :: rest =>
        advanceCursor fuel
          ⟨d, rest, [],
            st.outDocs ++ [⟨st.currDoc.documentId, st.accExts, st.currDoc.text⟩]⟩
          chunkDocId

/-- The body of the per-`(text_chunk, scored_outputs)` loop of
`annotate_documents_single_pass` (a resolver error contributes an empty
aligned list; fuzzy alignment is disabled with threshold 0.75 and
`accept_match_lesser = false`, as in the source). -/
def processChunk (resolver : MResolver) (debug : Bool) (st : SPState)
    (chunk : TextChunkM) (scoredOutputs : List MScoredOutput) :
    Except AnnErr SPState :=
  if scoredOutputs.isEmpty then .error .emptyScoredOutputs
  else do
    let st ← advanceCursor (st.restDocs.length + 1) st chunk.doc.documentId
    let topInferenceResult := (scoredOutputs.head?.bind MScoredOutput.output).getD []
    let annotatedChunkExtractions := resolver.resolve topInferenceResult debug
    let chunkText := chunkTextOf chunk
    let charOffset := chunkCharOffset chunk
    let tokenOffset := chunk.tokenInterval.startIndex
    let alignedExtractions :=
      match annotatedChunkExtractions with
      | .ok extractions =>
        resolver.align extractions chunkText tokenOffset (some charOffset)
          false (3 / 4) false
      | .error _ => []
    .ok { st with accExts := st.accExts ++ alignedExtractions.map convertExtraction }

def processBatchChunks (resolver : MResolver) (debug : Bool) :
    List (TextChunkM × List MScoredOutput) → SPState → Except AnnErr SPState
  | [], st => .ok st
  | (chunk, outs) :: rest, st => do
    let st' ← processChunk resolver debug st chunk outs
    processBatchChunks resolver debug rest st'

def processBatches (mlm : MLanguageModel) (render : List Char → List Char)
    (resolver : MResolver) (debug : Bool) :
    List (List TextChunkM) → SPState → Except AnnErr SPState
  | [], st => .ok st
  | batch :: rest, st => do
    let batchPrompts := batch.map (fun c => render (chunkTextOf c))
    let batchScoredOutputs ← mlm.infer batchPrompts
    let st' ← processBatchChunks resolver debug (batch.zip batchScoredOutputs) st
    processBatches mlm render resolver debug rest st'

/-- `Annotator::annotate_documents_single_pass`.  `render` stands for
`QAPromptGenerator::render` (its output only feeds `infer`). -/
def annotateDocumentsSinglePass (documents : List MDoc) (mlm : MLanguageModel)
    (render : List Char → List Char) (resolver : MResolver)
    (maxCharBuffer batchLength : Nat) (debug : Bool) (fuel : Nat) :
    Except AnnErr (List MAnnotatedDoc) := do
  let chunks ← docChunkIterAux maxCharBuffer fuel documents []
  match documents with
  | [] => .ok []
  | currDoc :: restDocs =>
    let batches := makeBatches batchLength chunks
    let st ← processBatches mlm render resolver debug batches
      ⟨currDoc, restDocs, [], []⟩
    .ok (st.outDocs ++ [⟨st.currDoc.documentId, st.accExts, st.currDoc.text⟩])

end LX

/-! ## Supporting definitions for the claim statements and witnesses -/

namespace LX

/-- Char intervals as the spec reads them: both endpoints set. -/
def fullInterval (e : DExtraction) : Option (Nat × Nat) :=
  match e.charInterval with
  | some ⟨some s, some t⟩ => some (s, t)
  | _ => none

/-- An extraction either has no char interval or a fully-set one (every
extraction the pipeline itself builds satisfies this). -/
def wellFormedExt (e : DExtraction) : Bool :=
  match e.charInterval with
  | none => true
  | some ci => ci.startPos.isSome && ci.endPos.isSome

/-- Strict interval overlap as the claims state it
(`start1 < end2 ∧ start2 < end1`, on fully-set intervals; an extraction
without a char interval never overlaps). -/
def overlapClaim (a b : DExtraction) : Bool :=
  match fullInterval a, fullInterval b with
  | some i1, some i2 => decide (i1.1 < i2.2) && decide (i2.1 < i1.2)
  | _, _ => false

/-- One candidate of the claim-side merge: append exactly when it
overlaps no already-accepted extraction. -/
def mergeSpecStep (acc : List DExtraction) (e : DExtraction) : List DExtraction :=
  if acc.all (fun a => !overlapClaim e a) then acc ++ [e] else acc

/-- The multi-pass merge as claim C5 words it: start from the pass-1
list; walk the later passes in order and append an extraction exactly
when it overlaps no already-accepted extraction. -/
def mergeSpec (first : List DExtraction) (rest : List (List DExtraction)) :
    List DExtraction :=
  rest.foldl (fun acc pass => pass.foldl mergeSpecStep acc) first

/-- A concrete extraction of class `x` with char interval `[s, e)`. -/
def ceExt (s e : Nat) : DExtraction :=
  ⟨"x", "t", some ⟨some s, some e⟩, none, none, none, none, none, none⟩

/-- The chunk's lowercased whitespace tokens, as `align_extractions`
computes them. -/
def sourceTokensOf (sourceText : List Char) : List (List Char) :=
  (wsTokenize sourceText).map (fun t => toLower t.text)

/-- `needle` occurs as a contiguous block of `hay` at position `pos`. -/
def occursSlice (needle hay : List (List Char)) (pos : Nat) : Prop :=
  (hay.drop pos).take needle.length = needle ∧ pos + needle.length ≤ hay.length

/-- A `Resolver` viewed as the trait object the annotator receives. -/
def resolverOf (cfg : ResolverCfg) : MResolver :=
  ⟨resolve cfg, resolverAlign⟩

/-- `Resolver::default()` (fenced JSON, `_index` / `_attributes`
suffixes); the parser parameter is irrelevant for fence-less input. -/
def defaultResolverCfg : ResolverCfg :=
  ⟨true, some "_index", some "_attributes", false, fun _ => .ok .null⟩

/-- Parsed value of the reply
`extractions: [ person: Alice / person_index: 1, person: Bob / person_index: 2 ]`
(what serde produces for the fixture of claim C6). -/
def personJson : MJson :=
  .obj [("extractions", .arr [
    .obj [("person", .str "Alice"), ("person_index", .num 1)],
    .obj [("person", .str "Bob"), ("person_index", .num 2)]])]

def personCfg : ResolverCfg :=
  ⟨false, some "_index", some "_attributes", false, fun _ => .ok personJson⟩

def personListC6 : List RExtraction :=
  [RExtraction.make "person" "Alice" 1 0 none, RExtraction.make "person" "Bob" 2 1 none]

/-- Parsed value of a reply whose `extractions` array holds
`[ person: [] ]` — parses fine, but the extraction text is an array
(fixture of claim C4). -/
def arrayTextJson : MJson :=
  .obj [("extractions", .arr [.obj [("person", .arr [])]])]

def arrayTextCfg : ResolverCfg :=
  ⟨false, some "_index", some "_attributes", false, fun _ => .ok arrayTextJson⟩

/-- An input extraction already carrying `MatchLesser` whose text does
not occur in the source (fixture of claim C10). -/
def lesserExt : RExtraction :=
  { RExtraction.make "x" "zzz" 1 0 none with alignmentStatus := some .matchLesser }

def aliceExt : RExtraction := RExtraction.make "person" "Alice went" 1 0 none

/-- Fixtures of claim C1: one document, a model answering `reply` for
every prompt, and the default resolver (whose `resolve` parse-fails on
the fence-less `reply`). -/
def ceDocs : List MDoc := [⟨"d1", "a b".data⟩]

def ceMlm : MLanguageModel :=
  ⟨fun prompts => .ok (prompts.map (fun _ => [⟨some ("reply".data)⟩]))⟩

/-- Control part of the single-pass state: the document cursor. -/
def ctrlEq (s1 s2 : SPState) : Prop :=
  s1.currDoc = s2.currDoc ∧ s1.restDocs = s2.restDocs

/-- Lifts `ctrlEq` to the `Except` results of the single-pass loops:
both fail with the same error or both succeed with cursor-equal states. -/
def exceptCtrlEq : Except AnnErr SPState → Except AnnErr SPState → Prop
  | .ok a, .ok b => ctrlEq a b
  | .error a, .error b => a = b
  | _, _ => False

end LX

/-! ## Lemmas -/

namespace LX

theorem one_le_charUtf8Len (c : Char) : 1 ≤ charUtf8Len c := by
  unfold charUtf8Len; split <;> [skip; split <;> [skip; split]] <;> omega

theorem byteLen_cons (c : Char) (cs : List Char) :
    byteLen (c :: cs) = charUtf8Len c + byteLen cs := rfl

theorem byteLen_append (a b : List Char) :
    byteLen (a ++ b) = byteLen a + byteLen b := by
  induction a with
  | nil => simp [byteLen]
  | cons c cs ih => simp only [List.cons_append, byteLen_cons, ih]; ring

theorem byteLen_pos {cs : List Char} (h : cs ≠ []) : 0 < byteLen cs := by
  cases cs with
  | nil => exact absurd rfl h
  | cons c cs =>
    have := one_le_charUtf8Len c
    simp only [byteLen_cons]; omega

theorem list_any_congr {α : Type} {l : List α} {p q : α → Bool}
    (h : ∀ a ∈ l, p a = q a) : l.any p = l.any q := by
  induction l with
  | nil => rfl
  | cons a l ih =>
    simp only [List.any_cons]
    rw [h a (List.mem_cons_self a l), ih (fun b hb => h b (List.mem_cons_of_mem a hb))]

theorem extractionsOverlap_comm (a b : DExtraction) :
    extractionsOverlap a b = extractionsOverlap b a := by
  unfold extractionsOverlap
  cases a.charInterval <;> cases b.charInterval <;> simp [Bool.and_comm]

theorem extractionsOverlap_right_none {a b : DExtraction}
    (h : b.charInterval = none) : extractionsOverlap a b = false := by
  unfold extractionsOverlap
  cases ha : a.charInterval <;> simp [h]

theorem extractionsOverlap_left_none {a b : DExtraction}
    (h : a.charInterval = none) : extractionsOverlap a b = false := by
  unfold extractionsOverlap
  simp [h]

theorem mergeStep_cases (merged : List DExtraction) (e : DExtraction) :
    mergeStep merged e = merged ∨ mergeStep merged e = merged ++ [e] := by
  unfold mergeStep
  dsimp only
  split
  · exact .inl rfl
  · exact .inr rfl

theorem mergeStep_pairwise {merged : List DExtraction} {e : DExtraction}
    (h : merged.Pairwise fun a b => extractionsOverlap a b = false) :
    (mergeStep merged e).Pairwise fun a b => extractionsOverlap a b = false := by
  unfold mergeStep
  cases hci : e.charInterval with
  | none =>
    simp only [hci]
    refine List.pairwise_append.mpr ⟨h, List.pairwise_singleton _ _, ?_⟩
    intro a _ b hb
    rw [List.mem_singleton.mp hb]
    exact extractionsOverlap_right_none hci
  | some ci =>
    simp only [hci]
    split
    · exact h
    · next hov =>
      refine List.pairwise_append.mpr ⟨h, List.pairwise_singleton _ _, ?_⟩
      intro a ha b hb
      rw [List.mem_singleton.mp hb]
      have hall := List.any_eq_false.mp (Bool.not_eq_true _ ▸ hov) a ha
      cases hac : a.charInterval with
      | none => exact extractionsOverlap_left_none hac
      | some ci2 =>
        rw [extractionsOverlap_comm]
        simp only [hac, Option.isSome_some, Bool.true_and] at hall
        exact Bool.not_eq_true _ ▸ hall

theorem mergePass_pairwise {merged pass : List DExtraction}
    (h : merged.Pairwise fun a b => extractionsOverlap a b = false) :
    (mergePass merged pass).Pairwise fun a b => extractionsOverlap a b = false := by
  induction pass generalizing merged with
  | nil => exact h
  | cons e pass ih => exact ih (mergeStep_pairwise h)

/-- Claim C3 (amended): the merged multi-pass result is pairwise
non-overlapping whenever the pass-1 list itself is; every extraction
added from a later pass overlaps no already-accepted extraction.  (The
claim as stated — for every input, including a mutually-overlapping
first pass — is refuted by `C3_counterexample`: the first pass is copied
unchecked.) -/
theorem C3_merge_pairwise_of_first (first : List DExtraction)
    (rest : List (List DExtraction))
    (h : first.Pairwise fun a b => extractionsOverlap a b = false) :
    (mergeNonOverlappingExtractions (first :: rest)).Pairwise
      fun a b => extractionsOverlap a b = false := by
  unfold mergeNonOverlappingExtractions
  cases rest with
  | nil => exact h
  | cons pass rest =>
    simp only []
    have : ∀ (r : List (List DExtraction)) (acc : List DExtraction),
        acc.Pairwise (fun a b => extractionsOverlap a b = false) →
        (r.foldl mergePass acc).Pairwise fun a b => extractionsOverlap a b = false := by
      intro r
      induction r with
      | nil => intro acc hacc; exact hacc
      | cons p r ih => intro acc hacc; exact ih _ (mergePass_pairwise hacc)
    exact this (pass :: rest) first h

/-- Claim C3 (counterexample): with a first pass containing two overlapping
extractions (`[0,5)` and `[3,8)`), the merged result is not pairwise
non-overlapping — `merge_non_overlapping_extractions` never checks the
first pass against itself. -/
theorem C3_counterexample :
    ¬ (mergeNonOverlappingExtractions [[ceExt 0 5, ceExt 3 8], []]).Pairwise
        (fun a b => extractionsOverlap a b = false) := by decide

theorem C3_witness :
    ([ceExt 0 5].Pairwise fun a b => extractionsOverlap a b = false) ∧
    (mergeNonOverlappingExtractions [[ceExt 0 5], [ceExt 3 8, ceExt 10 15]]).Pairwise
      (fun a b => extractionsOverlap a b = false) :=
  ⟨by decide, C3_merge_pairwise_of_first _ _ (by decide)⟩

theorem mergeStep_eq_spec {merged : List DExtraction} {e : DExtraction}
    (hacc : ∀ a ∈ merged, wellFormedExt a = true)
    (he : wellFormedExt e = true) :
    mergeStep merged e = mergeSpecStep merged e := by
  unfold mergeStep mergeSpecStep
  cases hci : e.charInterval with
  | none =>
    have hall : (merged.all fun a => !overlapClaim e a) = true :=
      List.all_eq_true.mpr fun a _ => by
        unfold overlapClaim fullInterval
        simp [hci]
    simp [hci, hall]
  | some ci =>
    unfold wellFormedExt at he
    rw [hci] at he
    obtain ⟨s, hs⟩ := Option.isSome_iff_exists.mp (Bool.and_elim_left he)
    obtain ⟨t, ht⟩ := Option.isSome_iff_exists.mp (Bool.and_elim_right he)
    have hpoint : ∀ a ∈ merged,
        (a.charInterval.isSome && extractionsOverlap e a) = overlapClaim e a := by
      intro a ha
      cases hac : a.charInterval with
      | none =>
        unfold overlapClaim fullInterval
        simp [hac]
      | some ci2 =>
        have hwa := hacc a ha
        unfold wellFormedExt at hwa
        rw [hac] at hwa
        obtain ⟨s2, hs2⟩ := Option.isSome_iff_exists.mp (Bool.and_elim_left hwa)
        obtain ⟨t2, ht2⟩ := Option.isSome_iff_exists.mp (Bool.and_elim_right hwa)
        unfold extractionsOverlap overlapClaim fullInterval optLt
        cases ci with
        | mk cs ce =>
          cases ci2 with
          | mk c2s c2e =>
            simp only at hs hs2 ht ht2
            subst hs; subst ht; subst hs2; subst ht2
            simp [hci, hac]
    have hbody : merged.any (fun a => a.charInterval.isSome && extractionsOverlap e a) =
        merged.any (fun a => overlapClaim e a) := list_any_congr hpoint
    simp only [hci, hbody]
    rw [show (merged.all fun a => !overlapClaim e a) = !(merged.any fun a => overlapClaim e a) by
      simp [List.all_eq_not_any_not]]
    cases hany : merged.any (fun a => overlapClaim e a) <;> simp

theorem mergeStep_wf {merged : List DExtraction} {e : DExtraction}
    (hacc : ∀ a ∈ merged, wellFormedExt a = true)
    (he : wellFormedExt e = true) :
    ∀ a ∈ mergeStep merged e, wellFormedExt a = true := by
  intro a ha
  rcases mergeStep_cases merged e with hc | hc <;> rw [hc] at ha
  · exact hacc a ha
  · rcases List.mem_append.mp ha with h | h
    · exact hacc a h
    · rw [List.mem_singleton.mp h]; exact he

theorem mergePass_eq_spec {merged pass : List DExtraction}
    (hacc : ∀ a ∈ merged, wellFormedExt a = true)
    (hpass : ∀ e ∈ pass, wellFormedExt e = true) :
    mergePass merged pass = pass.foldl mergeSpecStep merged ∧
      ∀ a ∈ mergePass merged pass, wellFormedExt a = true := by
  induction pass generalizing merged with
  | nil => exact ⟨rfl, hacc⟩
  | cons e pass ih =>
    have he := hpass e (List.mem_cons_self e pass)
    have hrest : ∀ x ∈ pass, wellFormedExt x = true :=
      fun x hx => hpass x (List.mem_cons_of_mem e hx)
    have hstep := mergeStep_eq_spec hacc he
    have hmain := @ih (mergeStep merged e) (mergeStep_wf hacc he) hrest
    have h1 : mergePass merged (e :: pass) = mergePass (mergeStep merged e) pass := rfl
    have h2 : List.foldl mergeSpecStep merged (e :: pass) =
        List.foldl mergeSpecStep (mergeSpecStep merged e) pass := List.foldl_cons _ _
    constructor
    · rw [h1, h2, ← hstep]
      exact hmain.1
    · rw [h1]
      exact hmain.2

/-- Claim C5: the multi-pass merge is first-pass-wins, exactly as the claim
describes it (`mergeSpec`, written from the claim's words): the result
starts with the pass-1 list; a later extraction is appended iff its char
interval strictly overlaps no accepted one, and an extraction with no
char interval is always appended.  Well-formedness (no half-set char
interval) is assumed; every extraction the pipeline builds satisfies it.
The claim's concrete example is the second conjunct. -/
theorem C5_merge_first_pass_wins :
    (∀ (first : List DExtraction) (rest : List (List DExtraction)),
      (∀ e ∈ first, wellFormedExt e = true) →
      (∀ pass ∈ rest, ∀ e ∈ pass, wellFormedExt e = true) →
      mergeNonOverlappingExtractions (first :: rest) = mergeSpec first rest) ∧
    mergeNonOverlappingExtractions [[ceExt 0 5], [ceExt 3 8, ceExt 10 15]] =
      [ceExt 0 5, ceExt 10 15] := by
  constructor
  · intro first rest hfirst hrest
    unfold mergeNonOverlappingExtractions mergeSpec
    cases rest with
    | nil => rfl
    | cons pass rest =>
      simp only []
      have : ∀ (r : List (List DExtraction)) (acc : List DExtraction),
          (∀ a ∈ acc, wellFormedExt a = true) →
          (∀ p ∈ r, ∀ e ∈ p, wellFormedExt e = true) →
          r.foldl mergePass acc = r.foldl (fun acc pass => pass.foldl mergeSpecStep acc) acc := by
        intro r
        induction r with
        | nil => intro acc _ _; rfl
        | cons p r ih =>
          intro acc hacc hr
          have hp := hr p (List.mem_cons_self p r)
          have hr2 : ∀ q ∈ r, ∀ e ∈ q, wellFormedExt e = true :=
            fun q hq => hr q (List.mem_cons_of_mem p hq)
          have hme := mergePass_eq_spec hacc hp
          simp only [List.foldl_cons]
          rw [← hme.1, ih _ hme.2 hr2]
      exact this (pass :: rest) first hfirst hrest
  · decide

theorem C5_witness :
    (∀ e ∈ [ceExt 0 5], wellFormedExt e = true) ∧
    mergeNonOverlappingExtractions [[ceExt 0 5], [ceExt 3 8, ceExt 10 15]] =
      mergeSpec [ceExt 0 5] [[ceExt 3 8, ceExt 10 15]] :=
  ⟨by decide, C5_merge_first_pass_wins.1 _ _ (by decide) (by decide)⟩

theorem createAligned_status (e : RExtraction) (s l : Nat) (toks : List WToken)
    (tokOff chOff : Nat) (st : AlignStatus) :
    (createAlignedExtraction e s l toks tokOff chOff st).alignmentStatus = some st := rfl

theorem resolverAlign_eq_map (exts : List RExtraction) (src : List Char)
    (tokOff : Nat) (chOff : Option Nat) (fz : Bool) (th : ℚ) (lesser : Bool) :
    resolverAlign exts src tokOff chOff fz th lesser =
      exts.map (fun e => alignSingleExtraction e (sourceTokensOf src) (wsTokenize src)
        tokOff (chOff.getD 0) fz th) := by
  unfold resolverAlign alignExtractions sourceTokensOf
  cases exts with
  | nil => rfl
  | cons e rest => simp

theorem alignSingle_shape (e : RExtraction) (sourceTokens : List (List Char))
    (sourceToks : List WToken) (tokOff chOff : Nat) (fz : Bool) (th : ℚ) :
    (alignSingleExtraction e sourceTokens sourceToks tokOff chOff fz th).alignmentStatus =
        some .matchExact ∨
    (alignSingleExtraction e sourceTokens sourceToks tokOff chOff fz th).alignmentStatus =
        some .matchFuzzy ∨
    alignSingleExtraction e sourceTokens sourceToks tokOff chOff fz th = e := by
  unfold alignSingleExtraction
  dsimp only
  cases hemp : (extractionTokens e.extractionText.data).isEmpty with
  | true => rw [if_pos rfl]; exact .inr (.inr rfl)
  | false =>
    rw [if_neg (by simp)]
    cases hex : findExactMatch (extractionTokens e.extractionText.data) sourceTokens with
    | some pos => simp only [hex]; exact .inl (createAligned_status ..)
    | none =>
      simp only [hex]
      cases fz with
      | false => exact .inr (.inr rfl)
      | true =>
        rw [if_pos rfl]
        cases hfz : findFuzzyMatch (extractionTokens e.extractionText.data)
            sourceTokens th with
        | some sw =>
          obtain ⟨s, w⟩ := sw
          simp only [hfz]
          exact .inr (.inl (createAligned_status ..))
        | none => exact .inr (.inr rfl)

/-- Claim C10 (amended): `Resolver::align` ignores `accept_match_lesser`
entirely (identical output for both flag values), and it never assigns a
status itself other than exact or fuzzy: every returned extraction either
carries status exact or fuzzy, or is one of the input extractions
returned unchanged.  (The claim's stronger reading — no returned
extraction ever *has* status lesser — fails: an input extraction already
carrying `MatchLesser` that cannot be aligned is cloned verbatim, see
`C10_counterexample`.) -/
theorem C10_align_flag_and_status :
    (∀ (exts : List RExtraction) (src : List Char) (tokOff : Nat)
       (chOff : Option Nat) (fz : Bool) (th : ℚ) (l1 l2 : Bool),
       resolverAlign exts src tokOff chOff fz th l1 =
         resolverAlign exts src tokOff chOff fz th l2) ∧
    (∀ (exts : List RExtraction) (src : List Char) (tokOff : Nat)
       (chOff : Option Nat) (fz : Bool) (th : ℚ) (lesser : Bool),
       ∀ o ∈ resolverAlign exts src tokOff chOff fz th lesser,
         o.alignmentStatus = some .matchExact ∨
         o.alignmentStatus = some .matchFuzzy ∨ o ∈ exts) := by
  constructor
  · intro exts src tokOff chOff fz th l1 l2
    rfl
  · intro exts src tokOff chOff fz th lesser o ho
    rw [resolverAlign_eq_map] at ho
    obtain ⟨e, he, rfl⟩ := List.mem_map.mp ho
    rcases alignSingle_shape e (sourceTokensOf src) (wsTokenize src) tokOff
        (chOff.getD 0) fz th with h | h | h
    · exact .inl h
    · exact .inr (.inl h)
    · rw [h]; exact .inr (.inr he)

/-- Claim C10 (counterexample): an input extraction that already carries
`MatchLesser` and fails both alignment strategies is returned unchanged,
so `align`'s output does contain a `MatchLesser` status. -/
theorem C10_counterexample :
    (resolverAlign [lesserExt] ("a b".data) 0 none false (3 / 4) true).map
      RExtraction.alignmentStatus = [some .matchLesser] := rfl

theorem C10_witness :
    resolverAlign [lesserExt] ("a b".data) 0 none false (3 / 4) true =
      resolverAlign [lesserExt] ("a b".data) 0 none false (3 / 4) false ∧
    (lesserExt.alignmentStatus = some .matchExact ∨
     lesserExt.alignmentStatus = some .matchFuzzy ∨ lesserExt ∈ [lesserExt]) :=
  ⟨C10_align_flag_and_status.1 _ _ _ _ _ _ _ _,
   C10_align_flag_and_status.2 [lesserExt] ("a b".data) 0 none false (3 / 4) true
     lesserExt (show lesserExt ∈ resolverAlign [lesserExt] ("a b".data) 0 none false (3 / 4) true
       from List.mem_singleton.mpr rfl)⟩

/-- Claim C4 (amended): with `suppress_parse_errors` set, `resolve` maps every
`string_to_extraction_data` failure (empty input, missing fence, parser
failure, wrong top-level schema) to the empty list, but any error it
still returns comes from `extract_ordered_extractions_impl` on
successfully normalized data — invalid index value types, non-mapping
attributes and array/object extraction texts are *not* suppressed. -/
theorem C4_suppressed_errors (cfg : ResolverCfg) (input : List Char) (e : RErr)
    (h : resolve cfg input true = .error e) :
    ∃ groups, stringToExtractionData cfg input = .ok groups ∧
      extractOrderedExtractionsImpl cfg.extractionIndexSuffix
        cfg.extractionAttributesSuffix groups = .error e := by
  unfold resolve at h
  cases hs : stringToExtractionData cfg input with
  | ok groups =>
    rw [hs] at h
    exact ⟨groups, rfl, h⟩
  | error e2 =>
    rw [hs] at h
    simp at h

/-- Claim C4 (counterexample): the reply `extractions: [ person: [] ]` parses
and normalizes fine, but building the extraction fails on the array
extraction text — and `resolve` returns this error even though
`suppress_parse_errors` is set. -/
theorem C4_counterexample :
    resolve arrayTextCfg ("reply".data) true = .error .other := rfl

theorem C4_witness :
    resolve arrayTextCfg ("reply".data) true = .error .other ∧
    (∃ groups, stringToExtractionData arrayTextCfg ("reply".data) = .ok groups ∧
      extractOrderedExtractionsImpl arrayTextCfg.extractionIndexSuffix
        arrayTextCfg.extractionAttributesSuffix groups = .error .other) :=
  ⟨rfl, C4_suppressed_errors arrayTextCfg _ _ rfl⟩

/-- Claim C6: every successfully resolved reply yields a list sorted by
`(extraction_index, group_index)` non-decreasing, and the claim's
concrete fixture — `person: Alice / person_index: 1` and
`person: Bob / person_index: 2` — resolves to exactly
`[Alice, Bob]` with class `person` and the sibling-supplied indices. -/
theorem C6_resolve_ordered :
    (∀ (cfg : ResolverCfg) (input : List Char) (suppress : Bool)
       (l : List RExtraction),
       resolve cfg input suppress = .ok l → l.Sorted extLe) ∧
    resolve personCfg ("reply".data) false = .ok personListC6 := by
  constructor
  · intro cfg input suppress l h
    unfold resolve at h
    split at h
    · unfold extractOrderedExtractionsImpl at h
      cases hl : extractGroupsLoop cfg.extractionIndexSuffix
          cfg.extractionAttributesSuffix _ 0 0 with
      | ok processed =>
        rw [hl] at h
        change Except.ok (List.insertionSort extLe processed) = Except.ok l at h
        cases h
        exact List.sorted_insertionSort extLe processed
      | error e2 =>
        rw [hl] at h
        change Except.error e2 = Except.ok l at h
        exact absurd h (by simp)
    · cases suppress with
      | true =>
        rw [if_pos rfl] at h
        cases h
        exact List.sorted_nil
      | false => simp at h
  · rfl

theorem C6_witness :
    resolve personCfg ("reply".data) false = .ok personListC6 ∧
    personListC6.Sorted extLe :=
  ⟨C6_resolve_ordered.2,
   C6_resolve_ordered.1 personCfg ("reply".data) false personListC6 C6_resolve_ordered.2⟩

theorem slashGroupsAux_concat (fuel : Nat) :
    ∀ cs : List Char, (slashGroupsAux fuel cs).1 ++ (slashGroupsAux fuel cs).2 = cs := by
  induction fuel with
  | zero => intro cs; rfl
  | succ fuel ih =>
    intro cs
    unfold slashGroupsAux
    split
    · split
      · dsimp only
        rw [List.cons_append, List.append_assoc, ih, List.takeWhile_append_dropWhile]
      · rfl
    · rfl

theorem grabToken_concat : ∀ cs : List Char, (grabToken cs).1 ++ (grabToken cs).2 = cs := by
  intro cs
  unfold grabToken
  cases cs with
  | nil => rfl
  | cons c rest =>
    dsimp only
    split
    · exact List.takeWhile_append_dropWhile _ _
    · split
      · split
        · rw [List.append_assoc, slashGroupsAux_concat, List.takeWhile_append_dropWhile]
        · split
          · exact List.takeWhile_append_dropWhile _ _
          · exact List.takeWhile_append_dropWhile _ _
      · exact List.takeWhile_append_dropWhile _ _

theorem grabToken_ne_nil {c : Char} {rest : List Char}
    (hw : ¬ rustIsWhitespace c = true) : (grabToken (c :: rest)).1 ≠ [] := by
  unfold grabToken
  dsimp only
  split
  · next hcjk => rw [List.takeWhile_cons_of_pos hcjk]; simp
  · next hcjk =>
    split
    · next halnum =>
      split
      · intro hcontra
        have h1 := (List.append_eq_nil.mp hcontra).1
        rw [List.takeWhile_cons_of_pos halnum] at h1
        simp at h1
      · split
        · next halpha => rw [List.takeWhile_cons_of_pos halpha]; simp
        · next halpha =>
          have hdigit : isAsciiDigit c = true := by
            unfold isAsciiAlnum at halnum
            rcases Bool.or_eq_true .. |>.mp halnum with h | h
            · exact absurd h halpha
            · exact h
          rw [List.takeWhile_cons_of_pos hdigit]; simp
    · next halnum =>
      have hot : isOtherTok c = true := by
        unfold isOtherTok
        rw [Bool.and_eq_true, Bool.and_eq_true]
        refine ⟨⟨?_, ?_⟩, ?_⟩ <;> simp_all
      rw [List.takeWhile_cons_of_pos hot]; simp

theorem tokenizeAux_byte_offsets (orig : List Char) :
    ∀ (fuel : Nat) (cs pre : List Char) (idx : Nat) (nl : Bool),
      orig = pre ++ cs →
      ∀ tok ∈ tokenizeAux fuel cs (byteLen pre) idx nl,
        ∃ i j, i < j ∧ j ≤ orig.length ∧
          tok.startPos = byteLen (orig.take i) ∧
          tok.endPos = byteLen (orig.take j) := by
  intro fuel
  induction fuel with
  | zero => intro cs pre idx nl _ tok hm; exact absurd hm (by simp [tokenizeAux])
  | succ fuel ih =>
    intro cs pre idx nl horig tok hm
    cases cs with
    | nil => exact absurd hm (by simp [tokenizeAux])
    | cons c rest =>
      rw [tokenizeAux] at hm
      by_cases hws : rustIsWhitespace c = true
      · rw [if_pos hws] at hm
        have hlen : byteLen pre + charUtf8Len c = byteLen (pre ++ [c]) := by
          rw [byteLen_append]; rfl
        rw [hlen] at hm
        exact ih rest (pre ++ [c]) idx _ (by simpa using horig) tok hm
      · rw [if_neg hws] at hm
        have hcat := grabToken_concat (c :: rest)
        have hnn := @grabToken_ne_nil c rest hws
        set tk := (grabToken (c :: rest)).1 with htk
        set rest' := (grabToken (c :: rest)).2 with hrest2
        have horig2 : orig = (pre ++ tk) ++ rest' := by
          rw [List.append_assoc, hcat]; exact horig
        rcases List.mem_cons.mp hm with hhd | htl
        · refine ⟨pre.length, pre.length + tk.length, ?_, ?_, ?_, ?_⟩
          · have := List.length_pos.mpr hnn; omega
          · have : orig.length = pre.length + tk.length + rest'.length := by
              rw [horig2]; simp [Nat.add_assoc]
            omega
          · rw [hhd]
            have : orig.take pre.length = pre := by
              rw [horig]; exact List.take_left _ _
            rw [this]
          · rw [hhd]
            have h1 : orig.take (pre.length + tk.length) = pre ++ tk := by
              rw [horig2, show pre.length + tk.length = (pre ++ tk).length by simp]
              exact List.take_left _ _
            rw [h1, byteLen_append]
        · have hlen2 : byteLen pre + byteLen tk = byteLen (pre ++ tk) := by
            rw [byteLen_append]
          rw [hlen2] at htl
          exact ih rest' (pre ++ tk) (idx + 1) false horig2 tok htl

/-- Claim C2 (amended): every char interval the tokenizer produces is in UTF-8
*byte* offsets: each token's `start_pos` (resp. `end_pos`) is the total
UTF-8 byte length of a prefix of the text, the prefix of the code points
preceding the token (resp. up to the token's end).  For non-ASCII text
these are not code-point offsets; `C2_counterexample` exhibits a CJK
text where they differ. -/
theorem C2_byte_offsets : ∀ (t : List Char), ∀ tok ∈ tokenize t,
    ∃ i j, i < j ∧ j ≤ t.length ∧
      tok.startPos = byteLen (t.take i) ∧ tok.endPos = byteLen (t.take j) := by
  intro t tok hm
  exact tokenizeAux_byte_offsets t t.length t [] 0 false rfl tok hm

/-- Claim C2 (counterexample): in `宝玉 a` the token `a` starts at byte offset
7 while only 3 code points precede it, so token positions are not
code-point offsets. -/
theorem C2_counterexample :
    ¬ ∀ tok ∈ tokenize ("宝玉 a".data),
        charsBeforeByte ("宝玉 a".data) tok.startPos = tok.startPos := by decide

theorem range_find?_spec {p : Nat → Bool} {m k : Nat}
    (h : (List.range m).find? p = some k) :
    p k = true ∧ k < m ∧ ∀ q, q < k → p q = false := by
  obtain ⟨hp, as, bs, heq, hall⟩ := List.find?_eq_some.mp h
  have hmem : k ∈ List.range m := by
    rw [heq]; exact List.mem_append.mpr (.inr (List.mem_cons_self _ _))
  have hk : k < m := List.mem_range.mp hmem
  have hlen : as.length < m := by
    have hcl := congrArg List.length heq
    simp at hcl
    omega
  have h2 : (List.range m).get? as.length = some k := by
    rw [heq, List.get?_append_right (le_refl _), Nat.sub_self]
    rfl
  have h3 : (List.range m).get? as.length = some as.length := List.get?_range hlen
  have hask : as.length = k := by
    rw [h2] at h3
    injection h3 with h4
    omega
  have has : as = List.range k := by
    have h4 : (List.range m).take as.length = as := by
      rw [heq]; exact List.take_left _ _
    rw [List.take_range] at h4
    rw [← h4, hask, min_eq_left (le_of_lt hk)]
  refine ⟨hp, hk, ?_⟩
  intro q hq
  have hqas : q ∈ as := by rw [has]; exact List.mem_range.mpr hq
  simpa using hall q hqas

theorem occursSlice_iff_pred {needle hay : List (List Char)} (hne : needle ≠ [])
    (q : Nat) :
    (decide ((hay.drop q).take needle.length = needle) = true) ↔
      occursSlice needle hay q := by
  constructor
  · intro h
    have heq := of_decide_eq_true h
    refine ⟨heq, ?_⟩
    have hn : 0 < needle.length := List.length_pos.mpr hne
    have hcl := congrArg List.length heq
    rw [List.length_take, List.length_drop] at hcl
    omega
  · intro h
    exact decide_eq_true h.1

/-- `find_exact_match` returns the first (leftmost) occurrence whenever
one exists. -/
theorem findExactMatch_spec {needle hay : List (List Char)} (hne : needle ≠ [])
    {pos : Nat} (hocc : occursSlice needle hay pos) :
    ∃ p, findExactMatch needle hay = some p ∧ occursSlice needle hay p ∧
      ∀ q, q < p → ¬ occursSlice needle hay q := by
  have hn : 0 < needle.length := List.length_pos.mpr hne
  have hle : needle.length ≤ hay.length := le_trans (Nat.le_add_left _ _) hocc.2
  unfold findExactMatch
  rw [if_neg (by simp [hne]; omega)]
  cases hfind : (List.range (hay.length - needle.length + 1)).find?
      (fun start => decide ((hay.drop start).take needle.length = needle)) with
  | none =>
    exfalso
    have hex : ∃ x ∈ List.range (hay.length - needle.length + 1),
        (fun start => decide ((hay.drop start).take needle.length = needle)) x = true :=
      ⟨pos, List.mem_range.mpr (by have := hocc.2; omega),
        (occursSlice_iff_pred hne pos).mpr hocc⟩
    have hsome := List.find?_isSome.mpr hex
    rw [hfind] at hsome
    simp at hsome
  | some p =>
    obtain ⟨hp, _, hmin⟩ := range_find?_spec hfind
    refine ⟨p, rfl, (occursSlice_iff_pred hne p).mp hp, ?_⟩
    intro q hq hoq
    have hq1 := hmin q hq
    rw [(occursSlice_iff_pred hne q).mpr hoq] at hq1
    simp at hq1

theorem alignSingle_exact {e : RExtraction} {sourceTokens : List (List Char)}
    {sourceToks : List WToken} {tokOff chOff : Nat} {fz : Bool} {th : ℚ} {p : Nat}
    (hne : extractionTokens e.extractionText.data ≠ [])
    (hfind : findExactMatch (extractionTokens e.extractionText.data) sourceTokens = some p) :
    alignSingleExtraction e sourceTokens sourceToks tokOff chOff fz th =
      createAlignedExtraction e p (extractionTokens e.extractionText.data).length
        sourceToks tokOff chOff .matchExact := by
  unfold alignSingleExtraction
  rw [if_neg (by simp [hne]), hfind]

theorem createAligned_eq (e : RExtraction) (p n : Nat) (sourceToks : List WToken)
    (tokOff chOff : Nat) (st en : WToken)
    (h1 : p < sourceToks.length) (h2 : p + n ≤ sourceToks.length)
    (hst : sourceToks.get? p = some st) (hen : sourceToks.get? (p + n - 1) = some en) :
    createAlignedExtraction e p n sourceToks tokOff chOff .matchExact =
      { e with tokenInterval := some ⟨p + tokOff, p + n + tokOff⟩,
               charInterval := some ⟨chOff + st.startPos, chOff + en.endPos⟩,
               alignmentStatus := some .matchExact } := by
  unfold createAlignedExtraction
  dsimp only
  rw [if_pos (by rw [Bool.and_eq_true]; exact ⟨decide_eq_true h1, decide_eq_true h2⟩),
    hst, hen]

/-- Claim C7: whenever the extraction's lowercased whitespace-split tokens
occur contiguously in the chunk's lowercased tokens, `align` aligns that
extraction exactly at the first such position, recording
`token_interval = [p + token_offset, p + n + token_offset)` and the char
interval of the matched tokens shifted by `char_offset`; the occurrence
itself states that the lowercased tokens inside the recorded interval
equal the extraction's tokens.  The second conjunct is the claim's
concrete example (`Alice went` in `Alice went to the market.` at char
interval `[0, 10)`). -/
theorem C7_exact_alignment :
    (∀ (exts : List RExtraction) (src : List Char) (tokOff : Nat)
       (chOff : Option Nat) (fz : Bool) (th : ℚ) (lesser : Bool)
       (k : Nat) (e : RExtraction),
       exts.get? k = some e →
       extractionTokens e.extractionText.data ≠ [] →
       (∃ pos, occursSlice (extractionTokens e.extractionText.data)
         (sourceTokensOf src) pos) →
       ∃ p st en,
         findExactMatch (extractionTokens e.extractionText.data)
           (sourceTokensOf src) = some p ∧
         occursSlice (extractionTokens e.extractionText.data)
           (sourceTokensOf src) p ∧
         (∀ q, q < p → ¬ occursSlice (extractionTokens e.extractionText.data)
           (sourceTokensOf src) q) ∧
         (wsTokenize src).get? p = some st ∧
         (wsTokenize src).get?
           (p + (extractionTokens e.extractionText.data).length - 1) = some en ∧
         (resolverAlign exts src tokOff chOff fz th lesser).get? k =
           some { e with
             tokenInterval := some ⟨p + tokOff,
               p + (extractionTokens e.extractionText.data).length + tokOff⟩,
             charInterval := some ⟨chOff.getD 0 + st.startPos,
               chOff.getD 0 + en.endPos⟩,
             alignmentStatus := some AlignStatus.matchExact }) ∧
    resolverAlign [aliceExt] ("Alice went to the market.".data) 0 (some 0)
        false (3 / 4) false =
      [{ aliceExt with
          tokenInterval := some ⟨0, 2⟩,
          charInterval := some ⟨0, 10⟩,
          alignmentStatus := some AlignStatus.matchExact }] := by
  constructor
  · intro exts src tokOff chOff fz th lesser k e hk hne hex
    obtain ⟨pos, hocc⟩ := hex
    obtain ⟨p, hfind, hoccp, hmin⟩ := findExactMatch_spec hne hocc
    have hn : 0 < (extractionTokens e.extractionText.data).length :=
      List.length_pos.mpr hne
    have hlen : (sourceTokensOf src).length = (wsTokenize src).length :=
      List.length_map _ _
    have hp2 : p + (extractionTokens e.extractionText.data).length ≤
        (wsTokenize src).length := by
      have := hoccp.2; omega
    have hp1 : p < (wsTokenize src).length := by omega
    have hp3 : p + (extractionTokens e.extractionText.data).length - 1 <
        (wsTokenize src).length := by omega
    refine ⟨p, (wsTokenize src).get ⟨p, hp1⟩, (wsTokenize src).get ⟨_, hp3⟩,
      hfind, hoccp, hmin, List.get?_eq_get hp1, List.get?_eq_get hp3, ?_⟩
    rw [resolverAlign_eq_map, List.get?_map, hk]
    rw [Option.map_some']
    rw [alignSingle_exact hne hfind]
    rw [createAligned_eq e p _ (wsTokenize src) tokOff (chOff.getD 0)
      ((wsTokenize src).get ⟨p, hp1⟩) ((wsTokenize src).get ⟨_, hp3⟩)
      hp1 hp2 (List.get?_eq_get hp1) (List.get?_eq_get hp3)]
  · rfl

theorem C7_witness :
    ([aliceExt].get? 0 = some aliceExt) ∧
    (extractionTokens aliceExt.extractionText.data ≠ []) ∧
    (∃ pos, occursSlice (extractionTokens aliceExt.extractionText.data)
      (sourceTokensOf ("Alice went to the market.".data)) pos) ∧
    (∃ p st en,
      findExactMatch (extractionTokens aliceExt.extractionText.data)
        (sourceTokensOf ("Alice went to the market.".data)) = some p ∧
      occursSlice (extractionTokens aliceExt.extractionText.data)
        (sourceTokensOf ("Alice went to the market.".data)) p ∧
      (∀ q, q < p → ¬ occursSlice (extractionTokens aliceExt.extractionText.data)
        (sourceTokensOf ("Alice went to the market.".data)) q) ∧
      (wsTokenize ("Alice went to the market.".data)).get? p = some st ∧
      (wsTokenize ("Alice went to the market.".data)).get?
        (p + (extractionTokens aliceExt.extractionText.data).length - 1) = some en ∧
      (resolverAlign [aliceExt] ("Alice went to the market.".data) 0 (some 0)
          false (3 / 4) false).get? 0 =
        some { aliceExt with
          tokenInterval := some ⟨p + 0,
            p + (extractionTokens aliceExt.extractionText.data).length + 0⟩,
          charInterval := some ⟨(some 0 : Option Nat).getD 0 + st.startPos,
            (some 0 : Option Nat).getD 0 + en.endPos⟩,
          alignmentStatus := some AlignStatus.matchExact }) :=
  ⟨rfl, by decide, ⟨0, by constructor <;> decide⟩,
    C7_exact_alignment.1 [aliceExt] ("Alice went to the market.".data) 0 (some 0)
      false (3 / 4) false 0 aliceExt rfl (by decide) ⟨0, by constructor <;> decide⟩⟩

theorem findBreakAux_le (text : List Char) (tokens : List Tok) :
    ∀ (fuel i : Nat), findBreakAux text tokens fuel i ≤ tokens.length := by
  intro fuel
  induction fuel with
  | zero => intro i; exact le_refl _
  | succ fuel ih =>
    intro i
    unfold findBreakAux
    split
    · exact le_refl _
    · split
      · next hge _ => omega
      · exact ih (i + 1)

theorem findBreakAux_spec (text : List Char) (tokens : List Tok) :
    ∀ (fuel i : Nat), tokens.length ≤ i + fuel →
      ((∃ k, i ≤ k ∧ k < tokens.length ∧ sentBreakAt text tokens k = true ∧
        findBreakAux text tokens fuel i = k + 1 ∧
        ∀ j, i ≤ j → j < k → sentBreakAt text tokens j = false) ∨
       (findBreakAux text tokens fuel i = tokens.length ∧
        ∀ j, i ≤ j → j < tokens.length → sentBreakAt text tokens j = false)) := by
  intro fuel
  induction fuel with
  | zero =>
    intro i hle
    right
    exact ⟨rfl, fun j hij hj => absurd (lt_of_le_of_lt hij hj) (by omega)⟩
  | succ fuel ih =>
    intro i hle
    unfold findBreakAux
    split
    · next hge =>
      right
      exact ⟨rfl, fun j hij hj => absurd (lt_of_le_of_lt hij hj) (by omega)⟩
    · next hge =>
      split
      · next hbr =>
        left
        exact ⟨i, le_refl i, by omega, hbr, rfl, fun j h1 h2 => by omega⟩
      · next hbr =>
        have hbr2 : sentBreakAt text tokens i = false := by
          revert hbr; cases sentBreakAt text tokens i <;> simp
        rcases ih (i + 1) (by omega) with ⟨k, hik, hk, hbk, heq, hmin⟩ | ⟨heq, hall⟩
        · left
          refine ⟨k, by omega, hk, hbk, heq, ?_⟩
          intro j h1 h2
          rcases Nat.eq_or_lt_of_le h1 with rfl | h3
          · exact hbr2
          · exact hmin j (by omega) h2
        · right
          refine ⟨heq, ?_⟩
          intro j h1 h2
          rcases Nat.eq_or_lt_of_le h1 with rfl | h3
          · exact hbr2
          · exact hall j (by omega) h2

/-- Claim C9: from a valid start index, `find_sentence_range` returns the
smallest interval `[start, k+1)` where token `k` satisfies the break
condition (a punctuation token whose text ends with one of
`. ? ! 。 ？ ！` and whose concatenation with the previous token's text
is not a known abbreviation, or a token followed by a gap containing a
newline and a token starting with an uppercase letter — this is
`sentBreakAt`, built from the embedded `is_end_of_sentence_token` and
`is_sentence_break_after_newline`), or `[start, token_count)` when no
such `k` exists.  The concrete conjuncts show the claim's example: in
`Dr. Smith went to Paris.` the period of `Dr.` (token 1) does not break,
and the sentence runs to `[0, 7)`. -/
theorem C9_sentence_range :
    (∀ (text : List Char) (tokens : List Tok) (start : Nat),
       start < tokens.length →
       ∃ iv, findSentenceRange text tokens start = .ok iv ∧
         iv.startIndex = start ∧
         ((∃ k, start ≤ k ∧ k < tokens.length ∧ sentBreakAt text tokens k = true ∧
            iv.endIndex = k + 1 ∧
            ∀ j, start ≤ j → j < k → sentBreakAt text tokens j = false) ∨
          (iv.endIndex = tokens.length ∧
            ∀ j, start ≤ j → j < tokens.length →
              sentBreakAt text tokens j = false))) ∧
    findSentenceRange ("Dr. Smith went to Paris.".data)
      (tokenize ("Dr. Smith went to Paris.".data)) 0 = .ok ⟨0, 7⟩ ∧
    sentBreakAt ("Dr. Smith went to Paris.".data)
      (tokenize ("Dr. Smith went to Paris.".data)) 1 = false := by
  refine ⟨?_, by decide, by decide⟩
  intro text tokens start h
  unfold findSentenceRange
  rw [if_neg (by omega)]
  exact ⟨⟨start, findBreakAux text tokens (tokens.length - start) start⟩, rfl, rfl,
    findBreakAux_spec text tokens (tokens.length - start) start (by omega)⟩

theorem C9_witness :
    0 < (tokenize ("Dr. Smith went to Paris.".data)).length ∧
    (∃ iv, findSentenceRange ("Dr. Smith went to Paris.".data)
        (tokenize ("Dr. Smith went to Paris.".data)) 0 = .ok iv ∧
      iv.startIndex = 0 ∧
      ((∃ k, 0 ≤ k ∧ k < (tokenize ("Dr. Smith went to Paris.".data)).length ∧
        sentBreakAt ("Dr. Smith went to Paris.".data)
          (tokenize ("Dr. Smith went to Paris.".data)) k = true ∧
        iv.endIndex = k + 1 ∧
        ∀ j, 0 ≤ j → j < k → sentBreakAt ("Dr. Smith went to Paris.".data)
          (tokenize ("Dr. Smith went to Paris.".data)) j = false) ∨
       (iv.endIndex = (tokenize ("Dr. Smith went to Paris.".data)).length ∧
        ∀ j, 0 ≤ j → j < (tokenize ("Dr. Smith went to Paris.".data)).length →
          sentBreakAt ("Dr. Smith went to Paris.".data)
            (tokenize ("Dr. Smith went to Paris.".data)) j = false))) :=
  ⟨by decide, C9_sentence_range.1 ("Dr. Smith went to Paris.".data)
    (tokenize ("Dr. Smith went to Paris.".data)) 0 (by decide)⟩

theorem tokenizeAux_lb : ∀ (fuel : Nat) (cs : List Char) (p idx : Nat) (nl : Bool),
    ∀ tok ∈ tokenizeAux fuel cs p idx nl, p ≤ tok.startPos ∧ tok.startPos < tok.endPos := by
  intro fuel
  induction fuel with
  | zero => intro cs p idx nl tok hm; exact absurd hm (by simp [tokenizeAux])
  | succ fuel ih =>
    intro cs p idx nl tok hm
    cases cs with
    | nil => exact absurd hm (by simp [tokenizeAux])
    | cons c rest =>
      rw [tokenizeAux] at hm
      by_cases hws : rustIsWhitespace c = true
      · rw [if_pos hws] at hm
        have := ih rest (p + charUtf8Len c) idx _ tok hm
        have h1 := one_le_charUtf8Len c
        exact ⟨by omega, this.2⟩
      · rw [if_neg hws] at hm
        rcases List.mem_cons.mp hm with hhd | htl
        · subst hhd
          refine ⟨le_refl _, ?_⟩
          have := byteLen_pos (@grabToken_ne_nil c rest hws)
          simp only
          omega
        · have := ih _ (p + byteLen (grabToken (c :: rest)).1) (idx + 1) false tok htl
          have h2 : 0 ≤ byteLen (grabToken (c :: rest)).1 := Nat.zero_le _
          exact ⟨by omega, this.2⟩

theorem tokenizeAux_end_mono : ∀ (fuel : Nat) (cs : List Char) (p idx : Nat) (nl : Bool),
    (tokenizeAux fuel cs p idx nl).Pairwise (fun a b => a.endPos ≤ b.endPos) := by
  intro fuel
  induction fuel with
  | zero => intro cs p idx nl; simp [tokenizeAux]
  | succ fuel ih =>
    intro cs p idx nl
    cases cs with
    | nil => simp [tokenizeAux]
    | cons c rest =>
      rw [tokenizeAux]
      by_cases hws : rustIsWhitespace c = true
      · rw [if_pos hws]
        exact ih rest (p + charUtf8Len c) idx _
      · rw [if_neg hws]
        refine List.Pairwise.cons ?_ (ih _ (p + byteLen (grabToken (c :: rest)).1) (idx + 1) false)
        intro b hb
        have := tokenizeAux_lb fuel _ (p + byteLen (grabToken (c :: rest)).1) (idx + 1) false b hb
        simp only
        omega

theorem tokenize_end_mono (t : List Char) :
    (tokenize t).Pairwise (fun a b => a.endPos ≤ b.endPos) :=
  tokenizeAux_end_mono t.length t 0 0 false

theorem tokens_end_mono_get {tt : List Tok}
    (hmono : tt.Pairwise (fun a b => a.endPos ≤ b.endPos))
    {i j : Nat} (hij : i ≤ j) (hj : j < tt.length) :
    (tt.get ⟨i, lt_of_le_of_lt hij hj⟩).endPos ≤ (tt.get ⟨j, hj⟩).endPos := by
  rcases Nat.eq_or_lt_of_le hij with rfl | h
  · exact le_refl _
  · exact List.pairwise_iff_get.mp hmono ⟨i, _⟩ ⟨j, _⟩ h

/-- Shrinking a token interval (same start, smaller end) cannot make it
exceed the buffer, provided token end positions are monotone. -/
theorem exceed_shrink {tt : TokenizedTextM} {B : Nat}
    (hmono : tt.tokens.Pairwise (fun a b => a.endPos ≤ b.endPos))
    {s e e' : Nat} (he : e ≤ tt.tokens.length) (h2 : e' ≤ e)
    (h : tokensExceedBuffer tt B ⟨s, e⟩ = false) :
    tokensExceedBuffer tt B ⟨s, e'⟩ = false := by
  unfold tokensExceedBuffer getCharInterval
  dsimp only
  by_cases hse : s ≥ e'
  · rw [if_pos hse]
  · rw [if_neg hse]
    have hse' : s < e' := by omega
    have hs1 : s < tt.tokens.length := by omega
    have he1' : e' - 1 < tt.tokens.length := by omega
    have he1 : e - 1 < tt.tokens.length := by omega
    rw [List.get?_eq_get hs1, List.get?_eq_get he1']
    unfold tokensExceedBuffer getCharInterval at h
    dsimp only at h
    rw [if_neg (by omega)] at h
    rw [List.get?_eq_get hs1, List.get?_eq_get he1] at h
    simp only [Option.getD_some] at h ⊢
    have hb : (tt.tokens.get ⟨e - 1, he1⟩).endPos -
        (tt.tokens.get ⟨s, hs1⟩).startPos ≤ B := by
      have := of_decide_eq_false h
      omega
    have hm := tokens_end_mono_get hmono (show e' - 1 ≤ e - 1 by omega) he1
    rw [decide_eq_false_iff_not]
    omega

theorem sentNext_bounds {tt : TokenizedTextM} {pos : Nat} {iv : TokenIntervalT}
    (h : sentNext tt pos = some iv) :
    iv.startIndex = pos ∧ pos < tt.tokens.length ∧ iv.endIndex ≤ tt.tokens.length := by
  unfold sentNext at h
  by_cases hp : pos ≥ tt.tokens.length
  · rw [if_pos hp] at h
    exact absurd h (by simp)
  · rw [if_neg hp] at h
    unfold findSentenceRange at h
    rw [if_neg hp] at h
    dsimp only at h
    injection h with h2
    subst h2
    exact ⟨rfl, by omega, findBreakAux_le _ _ _ _⟩

theorem chunkForLoop_safe (tt : TokenizedTextM) (B : Nat)
    (hmono : tt.tokens.Pairwise fun a b => a.endPos ≤ b.endPos)
    (sentEnd : Nat) (hse : sentEnd ≤ tt.tokens.length) (s0 : Nat)
    (hcurr0 : tokensExceedBuffer tt B ⟨s0, s0 + 1⟩ = false) :
    ∀ (fuel : Nat) (curr : TokenIntervalT) (startNL : Option Nat) (tokenIndex : Nat),
      curr.startIndex = s0 →
      tokensExceedBuffer tt B curr = false →
      curr.endIndex ≤ tt.tokens.length →
      (curr.endIndex = tokenIndex ∨ (tokenIndex = s0 ∧ curr.endIndex = s0 + 1)) →
      (∀ nl, startNL = some nl → nl ≤ tokenIndex) →
      match chunkForLoop tt B sentEnd fuel curr startNL tokenIndex with
      | .inl (chunk, _) => tokensExceedBuffer tt B chunk = false
      | .inr curr' => tokensExceedBuffer tt B curr' = false ∧
          curr'.endIndex ≤ tt.tokens.length ∧ curr'.startIndex = s0 := by
  intro fuel
  induction fuel with
  | zero =>
    intro curr startNL tokenIndex hstart hP hend _ _
    exact ⟨hP, hend, hstart⟩
  | succ fuel ih =>
    intro curr startNL tokenIndex hstart hP hend hdisj hnl
    rw [chunkForLoop]
    by_cases hts : tokenIndex ≥ sentEnd
    · rw [if_pos hts]
      exact ⟨hP, hend, hstart⟩
    · rw [if_neg hts]
      dsimp only
      have hnl2 : ∀ nl,
          (if (tt.tokens.get? tokenIndex).elim false (·.firstTokenAfterNewline) = true
            then some tokenIndex else startNL) = some nl → nl ≤ tokenIndex := by
        intro nl hsn
        by_cases hc : (tt.tokens.get? tokenIndex).elim false (·.firstTokenAfterNewline) = true
        · rw [if_pos hc] at hsn
          injection hsn with h3
          omega
        · rw [if_neg hc] at hsn
          exact hnl nl hsn
      by_cases hex : tokensExceedBuffer tt B ⟨curr.startIndex, tokenIndex + 1⟩ = true
      · rw [if_pos hex]
        have hendtok : curr.endIndex = tokenIndex := by
          rcases hdisj with h1 | ⟨h1, h2⟩
          · exact h1
          · exfalso
            rw [hstart, h1] at hex
            rw [hcurr0] at hex
            exact Bool.false_ne_true hex
        cases hsn : (if (tt.tokens.get? tokenIndex).elim false
            (·.firstTokenAfterNewline) = true then some tokenIndex else startNL) with
        | none => exact hP
        | some nl =>
          dsimp only
          by_cases hz : 0 < nl
          · rw [if_pos hz]
            have hb : nl ≤ tokenIndex := hnl2 nl hsn
            have hP' : tokensExceedBuffer tt B ⟨s0, curr.endIndex⟩ = false := by
              rw [← hstart]
              exact hP
            have := exceed_shrink hmono hend (show nl ≤ curr.endIndex by omega) hP'
            rw [hstart]
            exact this
          · rw [if_neg hz]
            exact hP
      · rw [if_neg hex]
        have hex' : tokensExceedBuffer tt B ⟨curr.startIndex, tokenIndex + 1⟩ = false := by
          revert hex
          cases tokensExceedBuffer tt B ⟨curr.startIndex, tokenIndex + 1⟩ <;> simp
        exact ih ⟨curr.startIndex, tokenIndex + 1⟩ _ (tokenIndex + 1) hstart hex'
          (by dsimp only; omega) (.inl rfl)
          (fun nl hsn => le_trans (hnl2 nl hsn) (by omega))

theorem chunkWhileLoop_safe (tt : TokenizedTextM) (B : Nat) :
    ∀ (fuel : Nat) (curr : TokenIntervalT) (pos : Nat),
      tokensExceedBuffer tt B curr = false →
      tokensExceedBuffer tt B (chunkWhileLoop tt B fuel curr pos).1 = false := by
  intro fuel
  induction fuel with
  | zero => intro curr pos hP; exact hP
  | succ fuel ih =>
    intro curr pos hP
    rw [chunkWhileLoop]
    cases hs : sentNext tt pos with
    | none => exact hP
    | some sent2 =>
      dsimp only
      by_cases hex : tokensExceedBuffer tt B ⟨curr.startIndex, sent2.endIndex⟩ = true
      · rw [if_pos hex]
        exact hP
      · rw [if_neg hex]
        refine ih _ _ ?_
        revert hex
        cases tokensExceedBuffer tt B ⟨curr.startIndex, sent2.endIndex⟩ <;> simp

theorem chunkNext_safe {tt : TokenizedTextM} {B : Nat}
    (hmono : tt.tokens.Pairwise fun a b => a.endPos ≤ b.endPos)
    {st : CIState} {c : TokenIntervalT} {st' : CIState}
    (h : chunkNext tt B st = some (c, st')) :
    c.endIndex - c.startIndex = 1 ∨ tokensExceedBuffer tt B c = false := by
  unfold chunkNext at h
  cases hs : sentNext tt st.pos with
  | none =>
    rw [hs] at h
    exact absurd h (by simp)
  | some sentence =>
    rw [hs] at h
    dsimp only at h
    obtain ⟨hstart, hpos, hend⟩ := sentNext_bounds hs
    by_cases h1 : tokensExceedBuffer tt B
        ⟨sentence.startIndex, sentence.startIndex + 1⟩ = true
    · rw [if_pos h1] at h
      injection h with h2
      left
      have h3 : c = ⟨sentence.startIndex, sentence.startIndex + 1⟩ :=
        (congrArg Prod.fst h2).symm
      rw [h3]
      show sentence.startIndex + 1 - sentence.startIndex = 1
      omega
    · have h1' : tokensExceedBuffer tt B
          ⟨sentence.startIndex, sentence.startIndex + 1⟩ = false := by
        revert h1
        cases tokensExceedBuffer tt B ⟨sentence.startIndex, sentence.startIndex + 1⟩ <;>
          simp
      rw [if_neg h1] at h
      have hfl := chunkForLoop_safe tt B hmono sentence.endIndex hend
        sentence.startIndex h1' (sentence.endIndex - sentence.startIndex)
        ⟨sentence.startIndex, sentence.startIndex + 1⟩ none sentence.startIndex
        rfl h1' (show sentence.startIndex + 1 ≤ tt.tokens.length by omega)
        (.inr ⟨rfl, rfl⟩) (fun nl hsn => by cases hsn)
      cases hcf : chunkForLoop tt B sentence.endIndex
          (sentence.endIndex - sentence.startIndex)
          ⟨sentence.startIndex, sentence.startIndex + 1⟩ none sentence.startIndex with
      | inl pr =>
        rw [hcf] at h hfl
        obtain ⟨chunk, stx⟩ := pr
        injection h with h2
        right
        have h3 : c = chunk := (congrArg Prod.fst h2).symm
        rw [h3]
        exact hfl
      | inr curr =>
        rw [hcf] at h hfl
        dsimp only at h
        obtain ⟨hPc, hEc, hSc⟩ := hfl
        by_cases hb : st.broken = true
        · rw [if_pos hb] at h
          injection h with h2
          right
          have h3 : c = curr := (congrArg Prod.fst h2).symm
          rw [h3]
          exact hPc
        · rw [if_neg hb] at h
          injection h with h2
          right
          have h3 : c = (chunkWhileLoop tt B (tt.tokens.length + 1) curr
              sentence.endIndex).1 := (congrArg Prod.fst h2).symm
          rw [h3]
          exact chunkWhileLoop_safe tt B _ curr sentence.endIndex hPc

theorem chunkStream_safe {tt : TokenizedTextM} {B : Nat}
    (hmono : tt.tokens.Pairwise fun a b => a.endPos ≤ b.endPos) :
    ∀ (fuel : Nat) (st : CIState) (iv : TokenIntervalT),
      iv ∈ chunkStream tt B fuel st →
      iv.endIndex - iv.startIndex = 1 ∨ tokensExceedBuffer tt B iv = false := by
  intro fuel
  induction fuel with
  | zero => intro st iv hm; exact absurd hm (by simp [chunkStream])
  | succ fuel ih =>
    intro st iv hm
    rw [chunkStream] at hm
    cases hn : chunkNext tt B st with
    | none =>
      rw [hn] at hm
      exact absurd hm (by simp)
    | some pr =>
      rw [hn] at hm
      obtain ⟨c, st2⟩ := pr
      rcases List.mem_cons.mp hm with hhd | htl
      · subst hhd
        exact chunkNext_safe hmono hn
      · exact ih st2 iv htl

/-- Claim C8: every chunk the chunker yields either spans exactly one token
(the single over-budget-token case) or keeps its char span within the
budget: a chunk that does not span exactly one token and has a char
interval `[s, e)` satisfies `e - s ≤ B`.  (A degenerate empty chunk —
possible when the newline cut collapses the interval — has no char
interval at all and no multi-token chunk ever exceeds the budget.) -/
theorem C8_chunk_budget (t : List Char) (B fuel : Nat) (iv : TokenIntervalT)
    (hmem : iv ∈ documentChunks t B fuel)
    (hnot1 : iv.endIndex - iv.startIndex ≠ 1) :
    ∀ s e, getCharInterval (tokenizedText t) iv = .ok ⟨some s, some e⟩ →
      e - s ≤ B := by
  intro s e hci
  have hmono : (tokenizedText t).tokens.Pairwise (fun a b => a.endPos ≤ b.endPos) :=
    tokenize_end_mono t
  rcases chunkStream_safe hmono fuel ⟨0, false⟩ iv hmem with h1 | h2
  · exact absurd h1 hnot1
  · unfold tokensExceedBuffer at h2
    rw [hci] at h2
    simp only [Option.getD_some] at h2
    have := of_decide_eq_false h2
    omega

theorem C8_witness :
    ((⟨0, 7⟩ : TokenIntervalT) ∈
      documentChunks ("Hello world! This is Rust.".data) 1000 10) ∧
    ((7 : Nat) - 0 ≠ 1) ∧
    (∀ s e, getCharInterval (tokenizedText ("Hello world! This is Rust.".data))
        ⟨0, 7⟩ = .ok ⟨some s, some e⟩ → e - s ≤ 1000) :=
  ⟨by decide, by decide,
    C8_chunk_budget ("Hello world! This is Rust.".data) 1000 10 ⟨0, 7⟩
      (by decide) (by decide)⟩

theorem except_pure_bind {ε α β : Type} (a : α) (f : α → Except ε β) :
    (Except.ok a >>= f) = f a := rfl

theorem except_error_bind {ε α β : Type} (e : ε) (f : α → Except ε β) :
    ((Except.error e : Except ε α) >>= f) = Except.error e := rfl

theorem advanceCursor_ctrl : ∀ (fuel : Nat) (st1 st2 : SPState) (chunkDocId : String),
    ctrlEq st1 st2 →
    exceptCtrlEq (advanceCursor fuel st1 chunkDocId)
      (advanceCursor fuel st2 chunkDocId) := by
  intro fuel
  induction fuel with
  | zero => intro st1 st2 cid _; exact rfl
  | succ fuel ih =>
    intro st1 st2 cid h
    obtain ⟨hcurr, hrest⟩ := h
    unfold advanceCursor
    rw [hcurr, hrest]
    by_cases hc : (st2.currDoc.documentId == cid) = true
    · rw [if_pos hc, if_pos hc]
      exact ⟨hcurr, hrest⟩
    · rw [if_neg hc, if_neg hc]
      cases hr : st2.restDocs with
      | nil => exact rfl
      | cons d rest => exact ih _ _ cid ⟨rfl, rfl⟩

theorem processChunk_ctrl (rv1 rv2 : List Char → Bool → Except RErr (List RExtraction))
    (alignF : List RExtraction → List Char → Nat → Option Nat → Bool → ℚ → Bool →
      List RExtraction)
    (debug : Bool) (st1 st2 : SPState) (chunk : TextChunkM)
    (outs : List MScoredOutput) (h : ctrlEq st1 st2) :
    exceptCtrlEq (processChunk ⟨rv1, alignF⟩ debug st1 chunk outs)
      (processChunk ⟨rv2, alignF⟩ debug st2 chunk outs) := by
  unfold processChunk
  split
  · exact rfl
  · rw [h.2]
    have hadv := advanceCursor_ctrl (st2.restDocs.length + 1) st1 st2
      chunk.doc.documentId h
    cases ha1 : advanceCursor (st2.restDocs.length + 1) st1 chunk.doc.documentId with
    | error e1 =>
      cases ha2 : advanceCursor (st2.restDocs.length + 1) st2 chunk.doc.documentId with
      | error e2 =>
        rw [ha1, ha2] at hadv
        exact hadv
      | ok b =>
        rw [ha1, ha2] at hadv
        exact hadv.elim
    | ok a =>
      cases ha2 : advanceCursor (st2.restDocs.length + 1) st2 chunk.doc.documentId with
      | error e2 =>
        rw [ha1, ha2] at hadv
        exact hadv.elim
      | ok b =>
        rw [ha1, ha2] at hadv
        exact ⟨hadv.1, hadv.2⟩

theorem processBatchChunks_ctrl
    (rv1 rv2 : List Char → Bool → Except RErr (List RExtraction))
    (alignF : List RExtraction → List Char → Nat → Option Nat → Bool → ℚ → Bool →
      List RExtraction) (debug : Bool) :
    ∀ (l : List (TextChunkM × List MScoredOutput)) (st1 st2 : SPState),
      ctrlEq st1 st2 →
      exceptCtrlEq (processBatchChunks ⟨rv1, alignF⟩ debug l st1)
        (processBatchChunks ⟨rv2, alignF⟩ debug l st2) := by
  intro l
  induction l with
  | nil => intro st1 st2 h; exact ⟨h.1, h.2⟩
  | cons p rest ih =>
    intro st1 st2 h
    obtain ⟨chunk, outs⟩ := p
    unfold processBatchChunks
    have hpc := processChunk_ctrl rv1 rv2 alignF debug st1 st2 chunk outs h
    cases h1 : processChunk ⟨rv1, alignF⟩ debug st1 chunk outs with
    | error e1 =>
      cases h2 : processChunk ⟨rv2, alignF⟩ debug st2 chunk outs with
      | error e2 =>
        rw [h1, h2] at hpc
        exact hpc
      | ok b =>
        rw [h1, h2] at hpc
        exact hpc.elim
    | ok a =>
      cases h2 : processChunk ⟨rv2, alignF⟩ debug st2 chunk outs with
      | error e2 =>
        rw [h1, h2] at hpc
        exact hpc.elim
      | ok b =>
        rw [h1, h2] at hpc
        exact ih a b hpc

theorem processBatches_ctrl (mlm : MLanguageModel) (render : List Char → List Char)
    (rv1 rv2 : List Char → Bool → Except RErr (List RExtraction))
    (alignF : List RExtraction → List Char → Nat → Option Nat → Bool → ℚ → Bool →
      List RExtraction) (debug : Bool) :
    ∀ (batches : List (List TextChunkM)) (st1 st2 : SPState),
      ctrlEq st1 st2 →
      exceptCtrlEq (processBatches mlm render ⟨rv1, alignF⟩ debug batches st1)
        (processBatches mlm render ⟨rv2, alignF⟩ debug batches st2) := by
  intro batches
  induction batches with
  | nil => intro st1 st2 h; exact ⟨h.1, h.2⟩
  | cons batch rest ih =>
    intro st1 st2 h
    unfold processBatches
    dsimp only
    cases hi : mlm.infer (List.map (fun c => render (chunkTextOf c)) batch) with
    | error e => exact rfl
    | ok outs =>
      simp only [except_pure_bind]
      have hbc := processBatchChunks_ctrl rv1 rv2 alignF debug (batch.zip outs) st1 st2 h
      cases h1 : processBatchChunks ⟨rv1, alignF⟩ debug (batch.zip outs) st1 with
      | error e1 =>
        cases h2 : processBatchChunks ⟨rv2, alignF⟩ debug (batch.zip outs) st2 with
        | error e2 =>
          rw [h1, h2] at hbc
          exact hbc
        | ok b =>
          rw [h1, h2] at hbc
          exact hbc.elim
      | ok a =>
        cases h2 : processBatchChunks ⟨rv2, alignF⟩ debug (batch.zip outs) st2 with
        | error e2 =>
          rw [h1, h2] at hbc
          exact hbc.elim
        | ok b =>
          rw [h1, h2] at hbc
          exact ih a b hbc

/-- Claim C1 (amended): a resolver failure is never fatal to
`annotate_documents_single_pass` — whether the call succeeds is entirely
independent of the resolver's `resolve` function (on a resolver error the
chunk simply contributes no extractions).  In particular a parse error
without suppression does not make the call return an error. -/
theorem C1_parse_errors_not_fatal :
    ∀ (documents : List MDoc) (mlm : MLanguageModel)
      (render : List Char → List Char)
      (rv1 rv2 : List Char → Bool → Except RErr (List RExtraction))
      (alignF : List RExtraction → List Char → Nat → Option Nat → Bool → ℚ → Bool →
        List RExtraction)
      (B bl : Nat) (debug : Bool) (fuel : Nat),
      (annotateDocumentsSinglePass documents mlm render ⟨rv1, alignF⟩
        B bl debug fuel).isOk =
      (annotateDocumentsSinglePass documents mlm render ⟨rv2, alignF⟩
        B bl debug fuel).isOk := by
  intro documents mlm render rv1 rv2 alignF B bl debug fuel
  unfold annotateDocumentsSinglePass
  dsimp only
  cases hch : docChunkIterAux B fuel documents [] with
  | error e => rfl
  | ok chunks =>
    simp only [except_pure_bind]
    cases documents with
    | nil => rfl
    | cons currDoc restDocs =>
      dsimp only
      have hpb := processBatches_ctrl mlm render rv1 rv2 alignF debug
        (makeBatches bl chunks) ⟨currDoc, restDocs, [], []⟩
        ⟨currDoc, restDocs, [], []⟩ ⟨rfl, rfl⟩
      cases h1 : processBatches mlm render ⟨rv1, alignF⟩ debug
          (makeBatches bl chunks) ⟨currDoc, restDocs, [], []⟩ with
      | error e1 =>
        cases h2 : processBatches mlm render ⟨rv2, alignF⟩ debug
            (makeBatches bl chunks) ⟨currDoc, restDocs, [], []⟩ with
        | error e2 => rfl
        | ok b =>
          rw [h1, h2] at hpb
          exact hpb.elim
      | ok a =>
        cases h2 : processBatches mlm render ⟨rv2, alignF⟩ debug
            (makeBatches bl chunks) ⟨currDoc, restDocs, [], []⟩ with
        | error e2 =>
          rw [h1, h2] at hpb
          exact hpb.elim
        | ok b => rfl

/-- Claim C1 (counterexample): a run in which the default resolver parse-fails
on the chunk's top output (`reply` has no fence) with suppression *not*
requested (`debug = false`), yet `annotate_documents_single_pass`
succeeds and returns the document with no extractions instead of an
error. -/
theorem C1_counterexample :
    (resolverOf defaultResolverCfg).resolve ("reply".data) false = .error .parse ∧
    annotateDocumentsSinglePass ceDocs ceMlm id (resolverOf defaultResolverCfg)
      100 1 false 5 = .ok [⟨"d1", [], "a b".data⟩] :=
  ⟨rfl, rfl⟩

theorem C2_witness :
    (⟨1, .word, 7, 8, false⟩ : Tok) ∈ tokenize ("宝玉 a".data) ∧
    ∃ i j, i < j ∧ j ≤ ("宝玉 a".data).length ∧
      (7 : Nat) = byteLen (("宝玉 a".data).take i) ∧
      (8 : Nat) = byteLen (("宝玉 a".data).take j) :=
  ⟨by decide, C2_byte_offsets ("宝玉 a".data) ⟨1, .word, 7, 8, false⟩ (by decide)⟩

end LX
